import Mathlib

/-!
Verification of the fuse video decode/playback pipeline core.

The development shallowly embeds the decode-worker and preview-cache
classes of the repository:

* FrameReorderBuffer (decode.worker): B-frame reordering buffer.
  JS Map/Set iteration order is insertion order, so the buffer's key
  set and the emitted-pts set are modelled as insertion-ordered lists
  with distinct elements.  A frame is identified by its pts value
  (a JS number, modelled as a rational).
* KeyframeIndex (decode.worker): sample metadata plus keyframe index.
* Decode session registry (decode.worker): handleSeek / handleStop and
  the sample-feeding loop of handleDecode's onSamples callback.
* FrameCacheManager and PlaybackController (Preview component).

JS numbers are modelled as rationals; Date.now() is modelled as an
explicit clock argument threaded by the caller.
-/

/-- A decoded frame as the reorder buffer sees it: only its pts
(presentation timestamp, microseconds) is relevant to buffer logic. -/
abbrev Pts := ℚ

/-- State of the FrameReorderBuffer class.  The JS field
"buffer : Map(pts, VideoFrame)" is modelled by its insertion-ordered
key list; "emittedPts : Set(number)" likewise. -/
structure FrameReorderBuffer where
  buffer : List Pts
  maxBufferSize : ℕ
  emittedPts : List Pts
deriving DecidableEq, Repr

/-- Fresh buffer, as built by the constructor. -/
def FrameReorderBuffer.init (maxBufferSize : ℕ) : FrameReorderBuffer :=
  { buffer := [], maxBufferSize := maxBufferSize, emittedPts := [] }

/-- One step of the emitted-pts bookkeeping inside tryEmit's loop:
record a pts as emitted, then trim the tracking set to bound memory
(drop the 500 oldest once the size exceeds 1000). -/
def FrameReorderBuffer.pushEmitted (e : List Pts) (p : Pts) : List Pts :=
  let e2 := e ++ [p]
  if 1000 < e2.length then e2.drop 500 else e2

/-- FrameReorderBuffer.tryEmit: sort buffered pts ascending, emit the
emitCount = max(0, size - floor(maxBufferSize/2)) smallest, removing
each from the buffer and recording it as emitted.  Returns the new
state and the emitted pts in emission order. -/
def FrameReorderBuffer.tryEmit (b : FrameReorderBuffer) :
    FrameReorderBuffer × List Pts :=
  if b.buffer = [] then (b, [])
  else
    let sortedPts := b.buffer.insertionSort (· ≤ ·)
    let emitCount := b.buffer.length - b.maxBufferSize / 2
    let toEmit := sortedPts.take emitCount
    ({ b with
        buffer := b.buffer.filter (fun p => decide (p ∉ toEmit))
        emittedPts := toEmit.foldl FrameReorderBuffer.pushEmitted b.emittedPts },
      toEmit)

/-- FrameReorderBuffer.add: a frame whose pts is already buffered or
already tracked as emitted is dropped (closed) and nothing is emitted;
otherwise the frame is stored (Map.set appends a new key) and emission
is attempted. -/
def FrameReorderBuffer.add (b : FrameReorderBuffer) (pts : Pts) :
    FrameReorderBuffer × List Pts :=
  if pts ∈ b.buffer ∨ pts ∈ b.emittedPts then (b, [])
  else FrameReorderBuffer.tryEmit { b with buffer := b.buffer ++ [pts] }

/-- FrameReorderBuffer.flush: return all buffered frames in ascending
pts order and clear the buffer.  Note the source does not record the
flushed pts in emittedPts. -/
def FrameReorderBuffer.flush (b : FrameReorderBuffer) :
    FrameReorderBuffer × List Pts :=
  ({ b with buffer := [] }, b.buffer.insertionSort (· ≤ ·))

/-- FrameReorderBuffer.clear: close all buffered frames and empty both
the buffer and the emitted-pts set. -/
def FrameReorderBuffer.clear (b : FrameReorderBuffer) : FrameReorderBuffer :=
  { b with buffer := [], emittedPts := [] }

/-- Run a sequence of add calls from an accumulator (state, emitted so far),
concatenating the emitted pts of each call. -/
def FrameReorderBuffer.runAddsFrom (acc : FrameReorderBuffer × List Pts)
    (l : List Pts) : FrameReorderBuffer × List Pts :=
  l.foldl
    (fun acc p =>
      let r := FrameReorderBuffer.add acc.1 p
      (r.1, acc.2 ++ r.2))
    acc

/-- Run a sequence of add calls, concatenating the emitted pts. -/
def FrameReorderBuffer.runAdds (b : FrameReorderBuffer) (l : List Pts) :
    FrameReorderBuffer × List Pts :=
  FrameReorderBuffer.runAddsFrom (b, []) l

/-- Arrival orders with bounded B-frame displacement: each frame is
preceded (in arrival order) by at most floor(D/2) frames of larger
timestamp.  This is the reordering window the buffer is designed for. -/
def ReorderOK (D : ℕ) (l : List Pts) : Prop :=
  ∀ j, j < l.length →
    ((l.take j).filter (fun a => decide (l.getD j 0 < a))).length ≤ D / 2

instance (D : ℕ) (l : List Pts) : Decidable (ReorderOK D l) := by
  unfold ReorderOK; infer_instance

/-- The pts emitted by one tryEmit pass over buffer contents buf. -/
def emitTake (buf : List Pts) (D : ℕ) : List Pts :=
  (buf.insertionSort (· ≤ ·)).take (buf.length - D / 2)

/-- The pts kept in the buffer by one tryEmit pass over buffer contents buf. -/
def emitKeep (buf : List Pts) (D : ℕ) : List Pts :=
  buf.filter (fun p => decide (p ∉ emitTake buf D))

/-- Operations a decode session performs on its reorder buffer. -/
inductive ReorderOp where
  | addOp (pts : Pts)
  | flushOp
  | clearOp
deriving DecidableEq, Repr

/-- Apply one reorder-buffer operation, keeping only the state. -/
def applyReorderOp (b : FrameReorderBuffer) : ReorderOp → FrameReorderBuffer
  | .addOp p => (FrameReorderBuffer.add b p).1
  | .flushOp => (FrameReorderBuffer.flush b).1
  | .clearOp => FrameReorderBuffer.clear b

/-- Run a sequence of reorder-buffer operations. -/
def runReorderOps (b : FrameReorderBuffer) (ops : List ReorderOp) :
    FrameReorderBuffer :=
  ops.foldl applyReorderOp b

/-- A demuxed container sample as mp4box delivers it (container-native
units). -/
structure MP4Sample where
  cts : ℚ
  dts : ℚ
  timescale : ℚ
  duration : ℚ
  is_sync : Bool
  size : ℕ
deriving DecidableEq, Repr

/-- Sample metadata recorded by the KeyframeIndex (microsecond units). -/
structure SampleMetadata where
  index : ℕ
  pts : ℚ
  dts : ℚ
  duration : ℚ
  isSync : Bool
  size : ℕ
deriving DecidableEq, Repr

/-- State of the KeyframeIndex class.  The JS field
"samplePts : Map(sampleIndex, pts)" is modelled as an insertion-ordered
association list. -/
structure KeyframeIndex where
  keyframeIndices : List ℕ
  samplePts : List (ℕ × ℚ)
  samples : List SampleMetadata
deriving DecidableEq, Repr

/-- Fresh keyframe index. -/
def KeyframeIndex.init : KeyframeIndex := ⟨[], [], []⟩

/-- KeyframeIndex.buildFromSamples: resets samples, keyframeIndices and
samplePts, then records one SampleMetadata per input sample (timestamps
converted from container units to microseconds), pushing sync-flagged
sample indices onto the keyframe list. -/
def KeyframeIndex.buildFromSamples (idx : KeyframeIndex)
    (mp4Samples : List MP4Sample) : KeyframeIndex :=
  let cleared : KeyframeIndex :=
    { idx with samples := [], keyframeIndices := [], samplePts := [] }
  (mp4Samples.enum).foldl
    (fun acc iS =>
      let i := iS.1
      let sample := iS.2
      let pts := sample.cts / sample.timescale * 1000000
      let dts := sample.dts / sample.timescale * 1000000
      let duration := sample.duration / sample.timescale * 1000000
      let metadata : SampleMetadata :=
        ⟨i, pts, dts, duration, sample.is_sync, sample.size⟩
      { acc with
          samples := acc.samples ++ [metadata]
          samplePts := acc.samplePts ++ [(i, pts)]
          keyframeIndices :=
            if sample.is_sync then acc.keyframeIndices ++ [i]
            else acc.keyframeIndices })
    cleared

/-- KeyframeIndex.getSample: indexed lookup or the not-found signal. -/
def KeyframeIndex.getSample (idx : KeyframeIndex) (index : ℕ) :
    Option SampleMetadata :=
  idx.samples.get? index

/-- Pts recorded for a sample index; the source's samplePts.get(i) ?? 0. -/
def KeyframeIndex.ptsOf (idx : KeyframeIndex) (i : ℕ) : ℚ :=
  (idx.samplePts.lookup i).getD 0

/-- KeyframeIndex.getKeyframeTimes: keyframe times in seconds. -/
def KeyframeIndex.getKeyframeTimes (idx : KeyframeIndex) : List ℚ :=
  idx.keyframeIndices.map (fun i => idx.ptsOf i / 1000000)

/-- KeyframeIndex.sampleCount. -/
def KeyframeIndex.sampleCount (idx : KeyframeIndex) : ℕ :=
  idx.samples.length

/-- KeyframeIndex.keyframeCount. -/
def KeyframeIndex.keyframeCount (idx : KeyframeIndex) : ℕ :=
  idx.keyframeIndices.length

/-- KeyframeIndex.clear: drop all state. -/
def KeyframeIndex.clear (_idx : KeyframeIndex) : KeyframeIndex := ⟨[], [], []⟩

/-- The binary-search loop shared (textually duplicated) by the source's
KeyframeIndex.findKeyframeBefore and FrameCacheManager.getFrame: lo/hi with
inclusive hi is encoded as lo/hi1 with hi1 = hi + 1, so the JS loop
condition lo is at most hi becomes lo < hi1 and mid = floor((lo+hi)/2) =
(lo+hi1-1)/2.  keyAt m is the sort key at position m, resAt m the value the
loop records when the key at m is at most t.  The fuel argument only makes
the loop structurally recursive: every iteration shrinks hi1 - lo, so any
fuel of at least the initial hi1 - lo (callers pass the array length)
computes exactly the source loop. -/
def bsearchLE {β : Type} (keyAt : ℕ → ℚ) (resAt : ℕ → β) (t : ℚ) :
    ℕ → ℕ → ℕ → β → β
  | 0, _, _, res => res
  | fuel + 1, lo, hi1, res =>
    if lo < hi1 then
      let mid := (lo + hi1 - 1) / 2
      if keyAt mid ≤ t then
        bsearchLE keyAt resAt t fuel (mid + 1) hi1 (resAt mid)
      else bsearchLE keyAt resAt t fuel lo mid res
    else res

/-- KeyframeIndex.findKeyframeBefore: binary search for the keyframe with
the largest pts at or before targetTimeUs; the result defaults to the first
keyframe; the not-found signal is returned only when no keyframes exist. -/
def KeyframeIndex.findKeyframeBefore (idx : KeyframeIndex)
    (targetTimeUs : ℚ) : Option (ℕ × ℚ) :=
  if idx.keyframeIndices.length = 0 then none
  else
    let keyAt := fun m => idx.ptsOf (idx.keyframeIndices.getD m 0)
    let resAt := fun m => idx.keyframeIndices.getD m 0
    let result := bsearchLE keyAt resAt targetTimeUs
      idx.keyframeIndices.length 0 idx.keyframeIndices.length
      (idx.keyframeIndices.getD 0 0)
    some (result, idx.ptsOf result)

/-- Number of positions below n whose sort key is at most t. -/
def countLE (keyAt : ℕ → ℚ) (t : ℚ) (n : ℕ) : ℕ :=
  ((Finset.range n).filter (fun i => keyAt i ≤ t)).card

/-- Decode mode of a session. -/
inductive DecodeMode where
  | idle
  | continuous
  | seeking
deriving DecidableEq, Repr

/-- Per-source decode session state, restricted to the state the worker's
handlers inspect and mutate.  decoderOpen models "videoDecoder exists and
its state is not closed"; the demux and decoder handles themselves are
external collaborators. -/
structure DecodeSession where
  keyframeReceived : Bool
  decoderOpen : Bool
  reorderBuffer : FrameReorderBuffer
  keyframeIndex : KeyframeIndex
  mode : DecodeMode
deriving DecidableEq, Repr

/-- Messages the worker posts back to the caller. -/
inductive OutMsg where
  | frameMsg (id : String) (timestampSec : ℚ)
  | errorMsg (id : String) (error : String)
deriving DecidableEq, Repr

/-- emitFrames: each emitted frame is posted with its pts converted from
microseconds to seconds. -/
def emitFrames (id : String) (frames : List Pts) : List OutMsg :=
  frames.map (fun pts => OutMsg.frameMsg id (pts / 1000000))

/-- Replace the session stored under id (JS mutates the session object held
in the Map, which leaves the entry order unchanged). -/
def updateSession (sessions : List (String × DecodeSession)) (id : String)
    (s : DecodeSession) : List (String × DecodeSession) :=
  sessions.map (fun e => if e.1 = id then (id, s) else e)

/-- handleSeek: with no active session for the id, posts a
"No active session" error and returns.  Otherwise: enter seeking mode,
flush the reorder buffer and emit the drained frames, reset the
keyframeReceived flag when the decoder is open (after awaiting its flush),
pick the demux target via keyframeIndex.findKeyframeBefore (demux calls are
external effects not recorded in the session state), restart extraction and
return to continuous mode. -/
def handleSeek (sessions : List (String × DecodeSession)) (id : String)
    (time : ℚ) : List (String × DecodeSession) × List OutMsg :=
  match sessions.lookup id with
  | none => (sessions, [OutMsg.errorMsg id "No active session"])
  | some session =>
    let flushed := session.reorderBuffer.flush
    let msgs := emitFrames id flushed.2
    let session1 : DecodeSession :=
      { session with mode := DecodeMode.seeking, reorderBuffer := flushed.1 }
    let session2 : DecodeSession :=
      if session1.decoderOpen then { session1 with keyframeReceived := false }
      else session1
    let targetTimeUs := time * 1000000
    let _keyframeInfo := session2.keyframeIndex.findKeyframeBefore targetTimeUs
    let session3 : DecodeSession := { session2 with mode := DecodeMode.continuous }
    (updateSession sessions id session3, msgs)

/-- handleStop: with no active session for the id, silently returns (note:
no error is posted, unlike handleSeek).  Otherwise the demuxer is stopped,
the reorder buffer and keyframe index are cleared, decoders are closed, and
the session entry is deleted. -/
def handleStop (sessions : List (String × DecodeSession)) (id : String) :
    List (String × DecodeSession) × List OutMsg :=
  match sessions.lookup id with
  | none => (sessions, [])
  | some _session =>
    (sessions.eraseP (fun e => decide (e.1 = id)), [])

/-- The sample-feeding loop of handleDecode's onSamples callback: while the
session's keyframeReceived flag is false, non-sync samples are skipped; the
first sync sample sets the flag; every sample from then on is passed to
videoDecoder.decode.  Returns the final flag and the samples decoded. -/
def feedSamples (keyframeReceived : Bool) :
    List MP4Sample → Bool × List MP4Sample
  | [] => (keyframeReceived, [])
  | s :: rest =>
    if !keyframeReceived && !s.is_sync then feedSamples keyframeReceived rest
    else
      let r := feedSamples true rest
      (r.1, s :: r.2)

/-- An arbitrary concrete running session used by witnesses. -/
def sampleSession : DecodeSession :=
  ⟨false, true, FrameReorderBuffer.init 16, KeyframeIndex.init,
    DecodeMode.continuous⟩

/-- Per-source cache entry of the FrameCacheManager.  The JS field
"frames : Map(timestamp, ImageBitmap)" is modelled as an insertion-ordered
association list from timestamp to a frame handle (a number);
lastAccessTime records the Date.now() the caller observed. -/
structure SourceCache where
  frames : List (ℚ × ℕ)
  sortedTimestamps : List ℚ
  lastAccessTime : ℚ
deriving DecidableEq, Repr

/-- Maximum frames per source. -/
def MAX_FRAMES_PER_SOURCE : ℕ := 300

/-- Maximum total sources to cache. -/
def MAX_CACHED_SOURCES : ℕ := 10

/-- The frame cache manager: insertion-ordered map from source id to its
cache. -/
structure FrameCacheManager where
  caches : List (String × SourceCache)
deriving DecidableEq, Repr

/-- Fresh manager. -/
def FrameCacheManager.init : FrameCacheManager := ⟨[]⟩

/-- Replace (in place) the cache object stored under a source id; JS
mutates the cache object held in the Map, leaving entry order unchanged. -/
def updateCache (caches : List (String × SourceCache)) (id : String)
    (c : SourceCache) : List (String × SourceCache) :=
  caches.map (fun e => if e.1 = id then (id, c) else e)

/-- The frame-eviction while loop of addFrame: while the source holds at
least MAX_FRAMES_PER_SOURCE frames, shift the oldest timestamp off the
sorted list and release and delete that frame.  (When the sorted list is
empty but the frame map is still full the source loop would spin forever;
that state is unreachable because the sorted list mirrors the map's keys,
and the model then returns.) -/
def evictFramesLoop : List (ℚ × ℕ) → List ℚ → List (ℚ × ℕ) × List ℚ
  | frames, [] => (frames, [])
  | frames, t :: rest =>
    if MAX_FRAMES_PER_SOURCE ≤ frames.length then
      evictFramesLoop (frames.eraseP (fun p => decide (p.1 = t))) rest
    else (frames, t :: rest)

/-- The binarySearchInsertIdx loop: standard lower-bound search.  As with
bsearchLE, the fuel argument (callers pass the array length) only makes the
loop structural; any fuel of at least hi - lo computes the source loop. -/
def bsInsertLoop (arr : List ℚ) (value : ℚ) : ℕ → ℕ → ℕ → ℕ
  | 0, lo, _ => lo
  | fuel + 1, lo, hi =>
    if lo < hi then
      let mid := (lo + hi) / 2
      if arr.getD mid 0 < value then bsInsertLoop arr value fuel (mid + 1) hi
      else bsInsertLoop arr value fuel lo mid
    else lo

/-- FrameCacheManager.binarySearchInsertIdx. -/
def binarySearchInsertIdx (arr : List ℚ) (value : ℚ) : ℕ :=
  bsInsertLoop arr value arr.length 0 arr.length

/-- FrameCacheManager.evictOldSources: when more than MAX_CACHED_SOURCES
sources are cached, sort the entries by last access time (JS sort is
stable; mergeSort is the stable sort) and delete the least recently
accessed entries until the bound is met. -/
def FrameCacheManager.evictOldSources (m : FrameCacheManager) :
    FrameCacheManager :=
  if m.caches.length ≤ MAX_CACHED_SOURCES then m
  else
    let sorted := m.caches.mergeSort
      (fun a b => a.2.lastAccessTime ≤ b.2.lastAccessTime)
    let victims := sorted.take (sorted.length - MAX_CACHED_SOURCES)
    ⟨victims.foldl (fun acc v => acc.eraseP (fun e => decide (e.1 = v.1)))
      m.caches⟩

/-- The tail of addFrame once the per-source cache has been resolved (and
lazily created): duplicate timestamps release the incoming frame and
return; otherwise evict until below the per-source bound, append the frame,
splice the timestamp into the sorted list at its binary-search position,
stamp the access time and evict old sources. -/
def FrameCacheManager.addFrameToCache (caches : List (String × SourceCache))
    (sourceId : String) (cache : SourceCache) (timestamp : ℚ) (frame : ℕ)
    (now : ℚ) : FrameCacheManager :=
  if (cache.frames.lookup timestamp).isSome then ⟨caches⟩
  else
    let ev := evictFramesLoop cache.frames cache.sortedTimestamps
    let insertIdx := binarySearchInsertIdx ev.2 timestamp
    let cache1 : SourceCache :=
      ⟨ev.1 ++ [(timestamp, frame)],
        ev.2.take insertIdx ++ [timestamp] ++ ev.2.drop insertIdx, now⟩
    FrameCacheManager.evictOldSources ⟨updateCache caches sourceId cache1⟩

/-- FrameCacheManager.addFrame: look up the source's cache, creating and
inserting an empty one stamped with the current time when absent, then run
the shared tail. -/
def FrameCacheManager.addFrame (m : FrameCacheManager) (sourceId : String)
    (timestamp : ℚ) (frame : ℕ) (now : ℚ) : FrameCacheManager :=
  match m.caches.lookup sourceId with
  | none =>
    FrameCacheManager.addFrameToCache
      (m.caches ++ [(sourceId, ⟨[], [], now⟩)]) sourceId ⟨[], [], now⟩
      timestamp frame now
  | some cache =>
    FrameCacheManager.addFrameToCache m.caches sourceId cache timestamp
      frame now

/-- FrameCacheManager.getFrame: not-found when the source has no cache or
no frames; otherwise touch the access time and binary search the sorted
timestamps for the greatest timestamp at most the requested time, falling
back to the earliest frame when none is.  Returns the frame found together
with the updated manager. -/
def FrameCacheManager.getFrame (m : FrameCacheManager) (sourceId : String)
    (time : ℚ) (now : ℚ) : Option ℕ × FrameCacheManager :=
  match m.caches.lookup sourceId with
  | none => (none, m)
  | some cache =>
    if cache.frames.length = 0 then (none, m)
    else
      let cache1 : SourceCache := { cache with lastAccessTime := now }
      let m1 : FrameCacheManager := ⟨updateCache m.caches sourceId cache1⟩
      let timestamps := cache.sortedTimestamps
      let bestTs := bsearchLE (fun mid => timestamps.getD mid 0)
        (fun mid => timestamps.getD mid 0) time timestamps.length 0
        timestamps.length (-1)
      if bestTs = -1 then (cache.frames.lookup (timestamps.getD 0 0), m1)
      else (cache.frames.lookup bestTs, m1)

/-- FrameCacheManager.hasFrames. -/
def FrameCacheManager.hasFrames (m : FrameCacheManager)
    (sourceId : String) : Bool :=
  match m.caches.lookup sourceId with
  | none => false
  | some cache => 0 < cache.frames.length

/-- FrameCacheManager.clearSource: release and clear every frame of the
source's cache.  Note the source does not delete the map entry itself. -/
def FrameCacheManager.clearSource (m : FrameCacheManager)
    (sourceId : String) : FrameCacheManager :=
  match m.caches.lookup sourceId with
  | none => m
  | some cache =>
    ⟨updateCache m.caches sourceId
      { cache with frames := [], sortedTimestamps := [] }⟩

/-- FrameCacheManager.clearAll: release every frame of every cache and drop
all entries. -/
def FrameCacheManager.clearAll (_m : FrameCacheManager) : FrameCacheManager :=
  ⟨[]⟩

/-- The cache manager holding frames 12, 15, 19 at timestamps 2, 5, 9 of
source "a": the spec's worked example. -/
def mgrEx : FrameCacheManager :=
  ((FrameCacheManager.init.addFrame "a" 2 12 0).addFrame "a" 5 15
    0).addFrame "a" 9 19 0

/-- A cache manager holding frames 3, 1, 55 at timestamps -3, -1, 5 of
source "a": a cached timestamp equal to the search's -1 sentinel. -/
def mgrNeg : FrameCacheManager :=
  ((FrameCacheManager.init.addFrame "a" (-3) 3 0).addFrame "a" (-1) 1
    0).addFrame "a" 5 55 0

/-- 100ms: a delta beyond this is a jump. -/
def JUMP_THRESHOLD_SECONDS : ℚ := 1 / 10

/-- Classification of a requested time change. -/
inductive TimeChange where
  | seek
  | continuous
deriving DecidableEq, Repr

/-- State of the PlaybackController: last requested time per source. -/
structure PlaybackController where
  lastRequestedTime : List (String × ℚ)
deriving DecidableEq, Repr

/-- Fresh controller. -/
def PlaybackController.init : PlaybackController := ⟨[]⟩

/-- Map.set on lastRequestedTime: overwrite in place, or append a new
key. -/
def PlaybackController.setLastTime (pc : PlaybackController)
    (sourceId : String) (t : ℚ) : PlaybackController :=
  match pc.lastRequestedTime.lookup sourceId with
  | none => ⟨pc.lastRequestedTime ++ [(sourceId, t)]⟩
  | some _ =>
    ⟨pc.lastRequestedTime.map
      (fun e => if e.1 = sourceId then (sourceId, t) else e)⟩

/-- PlaybackController.detectTimeChange: a first request for a source is
recorded and classified continuous; otherwise the absolute delta from the
last requested time classifies seek exactly when it exceeds
JUMP_THRESHOLD_SECONDS, and the new time is always recorded. -/
def PlaybackController.detectTimeChange (pc : PlaybackController)
    (sourceId : String) (newTime : ℚ) : TimeChange × PlaybackController :=
  match pc.lastRequestedTime.lookup sourceId with
  | none => (TimeChange.continuous, pc.setLastTime sourceId newTime)
  | some lastTime =>
    let delta := |newTime - lastTime|
    let pc1 := pc.setLastTime sourceId newTime
    if JUMP_THRESHOLD_SECONDS < delta then (TimeChange.seek, pc1)
    else (TimeChange.continuous, pc1)

/-- PlaybackController.resetSource. -/
def PlaybackController.resetSource (pc : PlaybackController)
    (sourceId : String) : PlaybackController :=
  ⟨pc.lastRequestedTime.eraseP (fun e => decide (e.1 = sourceId))⟩

/-- PlaybackController.getLastTime. -/
def PlaybackController.getLastTime (pc : PlaybackController)
    (sourceId : String) : Option ℚ :=
  pc.lastRequestedTime.lookup sourceId

/-- The invariant the source maintains between a cache's frame map and its
sorted-timestamp list: both duplicate-free, the sorted list's members are
exactly the map's keys, and the two have equal size. -/
def WFpair (frames : List (ℚ × ℕ)) (ts : List ℚ) : Prop :=
  (frames.map Prod.fst).Nodup ∧ ts.Nodup ∧
    (∀ t ∈ ts, t ∈ frames.map Prod.fst) ∧ frames.length = ts.length

/-- A cache satisfies the source's invariant. -/
def WFCache (c : SourceCache) : Prop := WFpair c.frames c.sortedTimestamps

/-- The manager invariant: distinct source keys, every cache well-formed
and within the per-source frame bound, and the source count within its
bound. -/
def CacheInv (m : FrameCacheManager) : Prop :=
  (m.caches.map Prod.fst).Nodup ∧
  (∀ e ∈ m.caches, WFCache e.2 ∧
    e.2.frames.length ≤ MAX_FRAMES_PER_SOURCE) ∧
  m.caches.length ≤ MAX_CACHED_SOURCES

theorem reorderOK_split {D : ℕ} {l : List Pts} (hok : ReorderOK D l)
    {pre : List Pts} {y : Pts} {post : List Pts} (h : l = pre ++ y :: post) :
    (pre.filter (fun a => decide (y < a))).length ≤ D / 2 := by
  have hj : pre.length < l.length := by
    rw [h, List.length_append, List.length_cons]; omega
  have hget : l.getD pre.length 0 = y := by
    rw [h, List.getD_eq_getElem?_getD,
      List.getElem?_append_right (Nat.le_refl pre.length)]
    simp
  have htake : l.take pre.length = pre := by
    rw [h]; exact List.take_left pre (y :: post)
  have := hok pre.length hj
  rwa [hget, htake] at this

theorem sorted_lt_of_sorted_le_nodup {l : List Pts}
    (h : l.Sorted (· ≤ ·)) (hn : l.Nodup) : l.Sorted (· < ·) :=
  (List.Pairwise.and h hn).imp (fun hab => lt_of_le_of_ne hab.1 hab.2)

theorem take_lt_drop {s : List Pts} (hs : s.Sorted (· < ·)) (k : ℕ) :
    ∀ a ∈ s.take k, ∀ b ∈ s.drop k, a < b := by
  have h2 : ((s.take k) ++ (s.drop k)).Pairwise (· < ·) := by
    rw [List.take_append_drop]; exact hs
  exact fun a ha b hb => (List.pairwise_append.mp h2).2.2 a ha b hb

theorem filter_not_mem_take {s : List Pts} (hs : s.Nodup) (k : ℕ) :
    s.filter (fun a => decide (a ∉ s.take k)) = s.drop k := by
  have hdisj : List.Disjoint (s.take k) (s.drop k) := by
    have h := hs
    rw [← List.take_append_drop k s, List.nodup_append] at h
    exact h.2.2
  have h1 : ∀ t d : List Pts, List.Disjoint t d →
      (t ++ d).filter (fun a => decide (a ∉ t)) = d := by
    intro t d hdj
    rw [List.filter_append]
    have e1 : t.filter (fun a => decide (a ∉ t)) = [] :=
      List.filter_eq_nil_iff.mpr (fun a ha => by simp [ha])
    have e2 : d.filter (fun a => decide (a ∉ t)) = d := by
      apply List.filter_eq_self.mpr
      intro a ha
      simp only [decide_eq_true_eq]
      exact fun hmem => hdj hmem ha
    rw [e1, e2, List.nil_append]
  have h2 := h1 (s.take k) (s.drop k) hdisj
  rwa [List.take_append_drop] at h2

theorem mem_foldl_pushEmitted {q : Pts} :
    ∀ (ts e : List Pts), q ∈ ts.foldl FrameReorderBuffer.pushEmitted e →
      q ∈ e ∨ q ∈ ts := by
  intro ts
  induction ts with
  | nil => intro e h; exact Or.inl h
  | cons t ts ih =>
    intro e h
    rw [List.foldl_cons] at h
    rcases ih _ h with h1 | h1
    · unfold FrameReorderBuffer.pushEmitted at h1
      simp only at h1
      have h2 : q ∈ e ++ [t] := by
        by_cases hc : 1000 < (e ++ [t]).length
        · rw [if_pos hc] at h1; exact List.drop_subset _ _ h1
        · rwa [if_neg hc] at h1
      rcases List.mem_append.mp h2 with h3 | h3
      · exact Or.inl h3
      · have h4 : q = t := by simpa using h3
        exact Or.inr (h4 ▸ List.mem_cons_self _ _)
    · exact Or.inr (List.mem_cons_of_mem _ h1)

theorem add_eq_emit (D : ℕ) (bbuf bem : List Pts) (x : Pts)
    (hx_buf : x ∉ bbuf) (hx_em : x ∉ bem) :
    FrameReorderBuffer.add ⟨bbuf, D, bem⟩ x =
      (⟨emitKeep (bbuf ++ [x]) D, D,
        (emitTake (bbuf ++ [x]) D).foldl FrameReorderBuffer.pushEmitted bem⟩,
        emitTake (bbuf ++ [x]) D) := by
  unfold FrameReorderBuffer.add FrameReorderBuffer.tryEmit emitKeep emitTake
  rw [if_neg (by simp [hx_buf, hx_em]), if_neg (by simp)]

theorem emitKeep_perm_drop {buf : List Pts} (hnd : buf.Nodup) (D : ℕ) :
    (emitKeep buf D).Perm
      ((buf.insertionSort (· ≤ ·)).drop (buf.length - D / 2)) := by
  unfold emitKeep emitTake
  have hs_nd : (buf.insertionSort (· ≤ ·)).Nodup :=
    (List.perm_insertionSort _ buf).nodup_iff.mpr hnd
  have h1 := (List.perm_insertionSort (· ≤ ·) buf).symm.filter
    (fun p => decide (p ∉ (buf.insertionSort (· ≤ ·)).take (buf.length - D / 2)))
  rw [filter_not_mem_take hs_nd] at h1
  exact h1

theorem emit_perm {buf : List Pts} (hnd : buf.Nodup) (D : ℕ) :
    (emitTake buf D ++ emitKeep buf D).Perm buf := by
  have h1 := (emitKeep_perm_drop hnd D).append_left (emitTake buf D)
  refine h1.trans ?_
  unfold emitTake
  rw [← List.length_insertionSort (· ≤ ·) buf, List.take_append_drop]
  have := List.length_insertionSort (· ≤ ·) buf
  exact List.perm_insertionSort _ buf

theorem emitTake_sorted_lt {buf : List Pts} (hnd : buf.Nodup) (D : ℕ) :
    (emitTake buf D).Sorted (· < ·) := by
  unfold emitTake
  have hs_nd : (buf.insertionSort (· ≤ ·)).Nodup :=
    (List.perm_insertionSort _ buf).nodup_iff.mpr hnd
  have hs_lt : (buf.insertionSort (· ≤ ·)).Sorted (· < ·) :=
    sorted_lt_of_sorted_le_nodup (List.sorted_insertionSort _ _) hs_nd
  exact List.Pairwise.sublist (List.take_sublist _ _) hs_lt

theorem emitTake_lt_keep {buf : List Pts} (hnd : buf.Nodup) (D : ℕ) :
    ∀ a ∈ emitTake buf D, ∀ c ∈ emitKeep buf D, a < c := by
  intro a ha c hc
  have hs_nd : (buf.insertionSort (· ≤ ·)).Nodup :=
    (List.perm_insertionSort _ buf).nodup_iff.mpr hnd
  have hs_lt : (buf.insertionSort (· ≤ ·)).Sorted (· < ·) :=
    sorted_lt_of_sorted_le_nodup (List.sorted_insertionSort _ _) hs_nd
  have hc2 := (emitKeep_perm_drop hnd D).subset hc
  exact take_lt_drop hs_lt _ a ha c hc2

theorem emitTake_subset {buf : List Pts} {D : ℕ} :
    emitTake buf D ⊆ buf := by
  intro a ha
  exact (List.perm_insertionSort (· ≤ ·) buf).subset (List.take_subset _ _ ha)

theorem emitKeep_subset {buf : List Pts} {D : ℕ} :
    emitKeep buf D ⊆ buf :=
  fun _ ha => List.mem_of_mem_filter ha

theorem emitKeep_nodup {buf : List Pts} (hnd : buf.Nodup) (D : ℕ) :
    (emitKeep buf D).Nodup :=
  hnd.filter _

theorem emitKeep_length {buf : List Pts} (hnd : buf.Nodup) (D : ℕ)
    (h : emitTake buf D ≠ []) : (emitKeep buf D).length = D / 2 := by
  have h1 := (emitKeep_perm_drop hnd D).length_eq
  rw [List.length_drop, List.length_insertionSort] at h1
  have h2 : buf.length - D / 2 ≠ 0 ∧ buf.insertionSort (· ≤ ·) ≠ [] := by
    by_contra hc
    rw [Decidable.not_and_iff_or_not, Decidable.not_not, Decidable.not_not] at hc
    unfold emitTake at h
    rcases hc with hc | hc
    · exact h (by rw [hc, List.take_zero])
    · exact h (by rw [hc, List.take_nil])
  have h3 : buf.length ≠ 0 := by
    intro hc
    have := List.length_insertionSort (· ≤ ·) buf
    rw [hc] at this
    exact h2.2 (List.eq_nil_of_length_eq_zero this)
  rw [h1]
  omega

theorem runAddsFrom_invariant
    (D : ℕ) (l : List Pts) (hl : l.Nodup) (hok : ReorderOK D l) :
    ∀ (rest done out bbuf bem : List Pts),
      l = done ++ rest →
      (out ++ bbuf).Perm done →
      bbuf.Nodup →
      out.Sorted (· < ·) →
      (∀ e ∈ out, ∀ c ∈ bbuf, e < c) →
      (∀ e ∈ out, ∀ y ∈ rest, e < y) →
      (∀ q ∈ bem, q ∈ out) →
      (((FrameReorderBuffer.runAddsFrom (⟨bbuf, D, bem⟩, out) rest).2 ++
          (FrameReorderBuffer.runAddsFrom (⟨bbuf, D, bem⟩, out) rest).1.buffer).Perm l ∧
        (FrameReorderBuffer.runAddsFrom (⟨bbuf, D, bem⟩, out) rest).1.buffer.Nodup ∧
        (FrameReorderBuffer.runAddsFrom (⟨bbuf, D, bem⟩, out) rest).2.Sorted (· < ·) ∧
        (∀ e ∈ (FrameReorderBuffer.runAddsFrom (⟨bbuf, D, bem⟩, out) rest).2,
          ∀ c ∈ (FrameReorderBuffer.runAddsFrom (⟨bbuf, D, bem⟩, out) rest).1.buffer,
            e < c)) := by
  intro rest
  induction rest with
  | nil =>
    intro done out bbuf bem hsplit hperm hnd hsort hI4 _ _
    simp only [FrameReorderBuffer.runAddsFrom, List.foldl_nil]
    rw [List.append_nil] at hsplit
    subst hsplit
    exact ⟨hperm, hnd, hsort, hI4⟩
  | cons x rest ih =>
    intro done out bbuf bem hsplit hperm hnd hsort hI4 hI5 hI7
    have hsplit' : l = (done ++ [x]) ++ rest := by
      rw [hsplit]; simp [List.append_assoc]
    have hsub_out : out ⊆ done := fun a ha => hperm.subset (List.mem_append_left _ ha)
    have hsub_buf : bbuf ⊆ done := fun a ha => hperm.subset (List.mem_append_right _ ha)
    have hx_done : x ∉ done := by
      have h := hl
      rw [hsplit, List.nodup_append] at h
      exact fun hc => h.2.2 hc (List.mem_cons_self _ _)
    have hx_buf : x ∉ bbuf := fun hc => hx_done (hsub_buf hc)
    have hx_em : x ∉ bem := fun hc => hx_done (hsub_out (hI7 _ hc))
    have hbuf' : (bbuf ++ [x]).Nodup := by
      rw [List.nodup_append]
      exact ⟨hnd, List.nodup_singleton x,
        fun a ha hb => hx_buf ((List.mem_singleton.mp hb) ▸ ha)⟩
    have hstep : FrameReorderBuffer.runAddsFrom (⟨bbuf, D, bem⟩, out) (x :: rest) =
        FrameReorderBuffer.runAddsFrom
          (⟨emitKeep (bbuf ++ [x]) D, D,
            (emitTake (bbuf ++ [x]) D).foldl FrameReorderBuffer.pushEmitted bem⟩,
            out ++ emitTake (bbuf ++ [x]) D) rest := by
      unfold FrameReorderBuffer.runAddsFrom
      rw [List.foldl_cons]
      simp only [add_eq_emit D bbuf bem x hx_buf hx_em]
    rw [hstep]
    have hte_sub : emitTake (bbuf ++ [x]) D ⊆ bbuf ++ [x] := emitTake_subset
    have hkeep_sub : emitKeep (bbuf ++ [x]) D ⊆ bbuf ++ [x] := emitKeep_subset
    have hout_lt_buf' : ∀ e ∈ out, ∀ c ∈ bbuf ++ [x], e < c := by
      intro e he c hc
      rcases List.mem_append.mp hc with hc | hc
      · exact hI4 e he c hc
      · have hcx : c = x := by simpa using hc
        exact hcx ▸ hI5 e he x (List.mem_cons_self _ _)
    have hsort' : (out ++ emitTake (bbuf ++ [x]) D).Sorted (· < ·) :=
      List.pairwise_append.mpr ⟨hsort, emitTake_sorted_lt hbuf' D,
        fun a ha b hb => hout_lt_buf' a ha b (hte_sub hb)⟩
    have hperm' : ((out ++ emitTake (bbuf ++ [x]) D) ++
        emitKeep (bbuf ++ [x]) D).Perm (done ++ [x]) := by
      rw [List.append_assoc]
      refine (List.Perm.append_left out (emit_perm hbuf' D)).trans ?_
      rw [← List.append_assoc]
      exact hperm.append_right [x]
    have hI4' : ∀ e ∈ out ++ emitTake (bbuf ++ [x]) D,
        ∀ c ∈ emitKeep (bbuf ++ [x]) D, e < c := by
      intro e he c hc
      rcases List.mem_append.mp he with he | he
      · exact hout_lt_buf' e he c (hkeep_sub hc)
      · exact emitTake_lt_keep hbuf' D e he c hc
    have hkey : ∀ e ∈ emitTake (bbuf ++ [x]) D, ∀ y ∈ rest, e < y := by
      intro e he y hy
      by_contra hcon
      push_neg at hcon
      have he_buf : e ∈ bbuf ++ [x] := hte_sub he
      have he_done : e ∈ done ++ [x] := by
        rcases List.mem_append.mp he_buf with h2 | h2
        · exact List.mem_append_left _ (hsub_buf h2)
        · exact List.mem_append_right _ h2
      have hey : e ≠ y := by
        intro hce
        subst hce
        have h := hl
        rw [hsplit', List.nodup_append] at h
        exact h.2.2 he_done hy
      have hylt : y < e := lt_of_le_of_ne hcon (fun hc => hey hc.symm)
      have hte_ne : emitTake (bbuf ++ [x]) D ≠ [] := List.ne_nil_of_mem he
      have hRlen : (emitKeep (bbuf ++ [x]) D).length = D / 2 :=
        emitKeep_length hbuf' D hte_ne
      have hw_nd : (e :: emitKeep (bbuf ++ [x]) D).Nodup := by
        rw [List.nodup_cons]
        refine ⟨fun hc => ?_, emitKeep_nodup hbuf' D⟩
        have hp := List.of_mem_filter hc
        simp only [decide_eq_true_eq] at hp
        exact hp he
      obtain ⟨r1, r2, hy_split⟩ := List.append_of_mem hy
      have hfull : l = ((done ++ [x]) ++ r1) ++ y :: r2 := by
        rw [hsplit', hy_split]; simp [List.append_assoc]
      have hbound := reorderOK_split hok hfull
      have hw_sub : (e :: emitKeep (bbuf ++ [x]) D) ⊆
          ((done ++ [x]) ++ r1).filter (fun a => decide (y < a)) := by
        intro q hq
        have hq_buf : q ∈ bbuf ++ [x] := by
          rcases List.mem_cons.mp hq with hq | hq
          · exact hq ▸ he_buf
          · exact hkeep_sub hq
        have hq_done : q ∈ (done ++ [x]) ++ r1 := by
          apply List.mem_append_left
          rcases List.mem_append.mp hq_buf with hq2 | hq2
          · exact List.mem_append_left _ (hsub_buf hq2)
          · exact List.mem_append_right _ hq2
        have hq_gt : y < q := by
          rcases List.mem_cons.mp hq with hq | hq
          · exact hq ▸ hylt
          · exact hylt.trans (emitTake_lt_keep hbuf' D e he q hq)
        rw [List.mem_filter]
        exact ⟨hq_done, by simpa using hq_gt⟩
      have hlen := (hw_nd.subperm hw_sub).length_le
      rw [List.length_cons, hRlen] at hlen
      omega
    have hI5' : ∀ e ∈ out ++ emitTake (bbuf ++ [x]) D, ∀ y ∈ rest, e < y := by
      intro e he y hy
      rcases List.mem_append.mp he with he | he
      · exact hI5 e he y (List.mem_cons_of_mem _ hy)
      · exact hkey e he y hy
    have hI7' : ∀ q ∈ (emitTake (bbuf ++ [x]) D).foldl
        FrameReorderBuffer.pushEmitted bem, q ∈ out ++ emitTake (bbuf ++ [x]) D := by
      intro q hq
      rcases mem_foldl_pushEmitted _ _ hq with h | h
      · exact List.mem_append_left _ (hI7 _ h)
      · exact List.mem_append_right _ h
    exact ih (done ++ [x]) (out ++ emitTake (bbuf ++ [x]) D)
      (emitKeep (bbuf ++ [x]) D) _ hsplit' hperm' (emitKeep_nodup hbuf' D)
      hsort' hI4' hI5' hI7'

/-- C1 counterexample: the reorder buffer of depth 16 (the depth used by
every decode session), fed the pairwise-distinct pts 1..9 followed by 0,
emits 1 before 0; the concatenation of the add emissions and the final
flush is not the ascending sort of the inputs.  The frame with pts 0
arrives more than floor(16/2) = 8 positions late, outside the bounded
reordering window. -/
theorem C1_reorder_counterexample :
    ¬ ((FrameReorderBuffer.runAdds (FrameReorderBuffer.init 16)
          [1, 2, 3, 4, 5, 6, 7, 8, 9, 0]).2 ++
        (FrameReorderBuffer.flush
          (FrameReorderBuffer.runAdds (FrameReorderBuffer.init 16)
            [1, 2, 3, 4, 5, 6, 7, 8, 9, 0]).1).2 =
       List.insertionSort (· ≤ ·) [1, 2, 3, 4, 5, 6, 7, 8, 9, (0 : ℚ)]) := by
  decide

/-- C1 (amended): for every finite sequence of frames with pairwise-distinct
presentation timestamps, added one at a time to the Frame Reorder Buffer via
add, IF each frame is preceded in arrival order by at most
floor(maxBufferSize/2) frames of larger timestamp (the buffer's bounded
reordering window), THEN the concatenation of the frames returned by the
successive add calls followed by the frames returned by one final flush is
exactly the whole set of frames in sorted ascending timestamp order.
Without the window hypothesis the claim is false (see the counterexample). -/
theorem C1_reorder_emission_sorted (D : ℕ) (l : List Pts)
    (hnd : l.Nodup) (hok : ReorderOK D l) :
    (FrameReorderBuffer.runAdds (FrameReorderBuffer.init D) l).2 ++
      (FrameReorderBuffer.flush
        (FrameReorderBuffer.runAdds (FrameReorderBuffer.init D) l).1).2 =
      l.insertionSort (· ≤ ·) := by
  have hinv := runAddsFrom_invariant D l hnd hok l [] [] [] []
    (List.nil_append l).symm (by simp) List.nodup_nil List.sorted_nil
    (by intro e he; exact absurd he (List.not_mem_nil e))
    (by intro e he; exact absurd he (List.not_mem_nil e))
    (by intro q hq; exact absurd hq (List.not_mem_nil q))
  have hrw : FrameReorderBuffer.runAdds (FrameReorderBuffer.init D) l =
      FrameReorderBuffer.runAddsFrom (⟨[], D, []⟩, []) l := rfl
  rw [hrw]
  obtain ⟨hpermF, hndF, hsortF, hltF⟩ := hinv
  set r := FrameReorderBuffer.runAddsFrom (⟨[], D, []⟩, ([] : List Pts)) l with hr
  have hflush : (FrameReorderBuffer.flush r.1).2 =
      r.1.buffer.insertionSort (· ≤ ·) := rfl
  rw [hflush]
  apply List.eq_of_perm_of_sorted (r := (· ≤ ·))
  · refine (List.Perm.append_left r.2
      (List.perm_insertionSort (· ≤ ·) r.1.buffer)).trans ?_
    exact hpermF.trans (List.perm_insertionSort (· ≤ ·) l).symm
  · apply List.pairwise_append.mpr
    refine ⟨hsortF.imp le_of_lt, List.sorted_insertionSort _ _, ?_⟩
    intro a ha b hb
    exact le_of_lt (hltF a ha b
      ((List.perm_insertionSort (· ≤ ·) r.1.buffer).subset hb))
  · exact List.sorted_insertionSort _ _

/-- Witness for C1: the split-reorder round trip of the spec, arrival
order 0,2,1,4,3 with buffer depth 4, is inside the reordering window and
round-trips to 0,1,2,3,4. -/
theorem C1_reorder_emission_sorted_witness :
    ([0, 2, 1, 4, 3] : List Pts).Nodup ∧ ReorderOK 4 [0, 2, 1, 4, 3] ∧
      (FrameReorderBuffer.runAdds (FrameReorderBuffer.init 4)
          [0, 2, 1, 4, 3]).2 ++
        (FrameReorderBuffer.flush
          (FrameReorderBuffer.runAdds (FrameReorderBuffer.init 4)
            [0, 2, 1, 4, 3]).1).2 =
        List.insertionSort (· ≤ ·) [0, 2, 1, 4, 3] :=
  ⟨by decide, by decide,
    C1_reorder_emission_sorted 4 [0, 2, 1, 4, 3] (by decide) (by decide)⟩

theorem add_buffer_nodup {b : FrameReorderBuffer} (h : b.buffer.Nodup)
    (p : Pts) : (FrameReorderBuffer.add b p).1.buffer.Nodup := by
  obtain ⟨bbuf, bmax, bem⟩ := b
  by_cases hg : p ∈ bbuf ∨ p ∈ bem
  · have he : FrameReorderBuffer.add ⟨bbuf, bmax, bem⟩ p =
        (⟨bbuf, bmax, bem⟩, []) := by
      unfold FrameReorderBuffer.add
      simp [hg]
    rw [he]
    exact h
  · push_neg at hg
    have hbuf' : (bbuf ++ [p]).Nodup := by
      rw [List.nodup_append]
      exact ⟨h, List.nodup_singleton p,
        fun a ha hb => hg.1 ((List.mem_singleton.mp hb) ▸ ha)⟩
    rw [add_eq_emit bmax bbuf bem p hg.1 hg.2]
    exact emitKeep_nodup hbuf' bmax

theorem runReorderOps_nodup :
    ∀ (ops : List ReorderOp) (b : FrameReorderBuffer), b.buffer.Nodup →
      (runReorderOps b ops).buffer.Nodup := by
  intro ops
  induction ops with
  | nil => intro b hb; exact hb
  | cons o ops ih =>
    intro b hb
    unfold runReorderOps
    rw [List.foldl_cons]
    apply ih
    cases o with
    | addOp p => exact add_buffer_nodup hb p
    | flushOp => exact List.nodup_nil
    | clearOp => exact List.nodup_nil

/-- C3 counterexample: a pts returned by flush is not recorded in
emittedPts, so a later add of the same pts is buffered again rather than
released: after add 5, flush (which returns pts 5), a second add of pts 5
stores the frame (buffer holds 5) instead of storing nothing. -/
theorem C3_rebuffer_counterexample :
    (FrameReorderBuffer.flush
        (FrameReorderBuffer.add (FrameReorderBuffer.init 16) 5).1).2 = [5] ∧
      (FrameReorderBuffer.add
        (FrameReorderBuffer.flush
          (FrameReorderBuffer.add (FrameReorderBuffer.init 16) 5).1).1
        5).1.buffer = [5] := by
  decide

/-- C3 (amended): the Frame Reorder Buffer holds at most one buffered frame
per distinct pts at any time (the buffer's key list stays duplicate-free
under any sequence of add, flush and clear operations), and a pts that is
still tracked in the bounded emittedPts set is never re-buffered: an add of
such a pts releases the incoming frame, stores nothing and emits nothing.
Frames returned by flush are not recorded as emitted, so their pts may be
re-buffered by a later add (see the counterexample); the trimming of the
emittedPts set can likewise forget old emitted pts. -/
theorem C3_buffer_nodup_emitted_guard :
    (∀ (D : ℕ) (ops : List ReorderOp),
      (runReorderOps (FrameReorderBuffer.init D) ops).buffer.Nodup) ∧
    (∀ (b : FrameReorderBuffer) (p : Pts), p ∈ b.emittedPts →
      FrameReorderBuffer.add b p = (b, [])) := by
  constructor
  · intro D ops
    exact runReorderOps_nodup ops _ List.nodup_nil
  · intro b p hp
    unfold FrameReorderBuffer.add
    rw [if_pos (Or.inr hp)]

/-- Witness for C3: a concrete run (adds of pts 1, 7, 1, a flush and more
adds) keeps the buffer duplicate-free, and an add of the already-emitted
pts 5 on a concrete state is a no-op. -/
theorem C3_buffer_nodup_emitted_guard_witness :
    (runReorderOps (FrameReorderBuffer.init 4)
      [.addOp 1, .addOp 7, .addOp 1, .flushOp, .addOp 7,
        .addOp 3]).buffer.Nodup ∧
      FrameReorderBuffer.add ⟨[1, 2], 16, [5]⟩ 5 = (⟨[1, 2], 16, [5]⟩, []) :=
  ⟨C3_buffer_nodup_emitted_guard.1 4 _,
    C3_buffer_nodup_emitted_guard.2 ⟨[1, 2], 16, [5]⟩ 5 (by decide)⟩

theorem downward_closed_eq_range {S : Finset ℕ}
    (hdc : ∀ i j, i ≤ j → j ∈ S → i ∈ S) :
    S = Finset.range S.card := by
  ext x
  rw [Finset.mem_range]
  constructor
  · intro hx
    have h1 : Finset.range (x + 1) ⊆ S := by
      intro i hi
      rw [Finset.mem_range] at hi
      exact hdc i x (by omega) hx
    have h2 := Finset.card_le_card h1
    rw [Finset.card_range] at h2
    omega
  · intro hx
    by_contra hc
    have h1 : S ⊆ Finset.range x := by
      intro y hy
      rw [Finset.mem_range]
      by_contra hy2
      exact hc (hdc x y (by omega) hy)
    have h2 := Finset.card_le_card h1
    rw [Finset.card_range] at h2
    omega

theorem countLE_eq {keyAt : ℕ → ℚ} {t : ℚ} {n lo : ℕ}
    (hlo : lo ≤ n)
    (hinv1 : ∀ i, i < lo → keyAt i ≤ t)
    (hinv2 : ∀ i, lo ≤ i → i < n → t < keyAt i) :
    countLE keyAt t n = lo := by
  unfold countLE
  have hset : (Finset.range n).filter (fun i => keyAt i ≤ t) =
      Finset.range lo := by
    ext i
    simp only [Finset.mem_filter, Finset.mem_range]
    constructor
    · rintro ⟨hin, hle⟩
      by_contra hc
      exact absurd hle (not_le.mpr (hinv2 i (by omega) hin))
    · intro hi
      exact ⟨by omega, hinv1 i hi⟩
  rw [hset, Finset.card_range]

theorem bsearchLE_eq {β : Type} (keyAt : ℕ → ℚ) (resAt : ℕ → β) (t : ℚ)
    (fuel lo hi1 : ℕ) (res : β) :
    bsearchLE keyAt resAt t (fuel + 1) lo hi1 res =
      if lo < hi1 then
        (if keyAt ((lo + hi1 - 1) / 2) ≤ t then
          bsearchLE keyAt resAt t fuel ((lo + hi1 - 1) / 2 + 1) hi1
            (resAt ((lo + hi1 - 1) / 2))
        else bsearchLE keyAt resAt t fuel lo ((lo + hi1 - 1) / 2) res)
      else res := rfl

theorem bsearchLE_spec {β : Type} (keyAt : ℕ → ℚ) (resAt : ℕ → β) (t : ℚ)
    (n : ℕ) (mono : ∀ i j, i ≤ j → j < n → keyAt i ≤ keyAt j) (res0 : β) :
    ∀ (fuel lo hi1 : ℕ) (res : β),
      hi1 - lo ≤ fuel → lo ≤ hi1 → hi1 ≤ n →
      (∀ i, i < lo → keyAt i ≤ t) →
      (∀ i, hi1 ≤ i → i < n → t < keyAt i) →
      res = (if lo = 0 then res0 else resAt (lo - 1)) →
      bsearchLE keyAt resAt t fuel lo hi1 res =
        (if countLE keyAt t n = 0 then res0
          else resAt (countLE keyAt t n - 1)) := by
  intro fuel
  induction fuel with
  | zero =>
    intro lo hi1 res hfuel hlo hhi hinv1 hinv2 hres
    have heq : lo = hi1 := by omega
    subst heq
    rw [countLE_eq hhi hinv1 (fun i hi hin => hinv2 i hi hin)]
    exact hres
  | succ fuel ih =>
    intro lo hi1 res hfuel hlo hhi hinv1 hinv2 hres
    by_cases hcond : lo < hi1
    · rw [bsearchLE_eq, if_pos hcond]
      have hmid1 : lo ≤ (lo + hi1 - 1) / 2 := by omega
      have hmid2 : (lo + hi1 - 1) / 2 < hi1 := by omega
      by_cases hk : keyAt ((lo + hi1 - 1) / 2) ≤ t
      · rw [if_pos hk]
        apply ih ((lo + hi1 - 1) / 2 + 1) hi1 (resAt ((lo + hi1 - 1) / 2))
          (by omega) (by omega) hhi
        · intro i hi
          exact le_trans (mono i ((lo + hi1 - 1) / 2) (by omega) (by omega)) hk
        · exact hinv2
        · simp
      · rw [if_neg hk]
        push_neg at hk
        apply ih lo ((lo + hi1 - 1) / 2) res (by omega) (by omega) (by omega)
          hinv1 _ hres
        intro i hi hin
        exact lt_of_lt_of_le hk (mono ((lo + hi1 - 1) / 2) i hi hin)
    · have heq : lo = hi1 := by omega
      subst heq
      rw [bsearchLE_eq, if_neg (by omega)]
      rw [countLE_eq hhi hinv1 (fun i hi hin => hinv2 i hi hin)]
      exact hres

theorem keyAt_mono (idx : KeyframeIndex)
    (hmono : (idx.keyframeIndices.map idx.ptsOf).Sorted (· ≤ ·)) :
    ∀ i j, i ≤ j → j < idx.keyframeIndices.length →
      idx.ptsOf (idx.keyframeIndices.getD i 0) ≤
        idx.ptsOf (idx.keyframeIndices.getD j 0) := by
  intro i j hij hj
  have hi : i < idx.keyframeIndices.length := lt_of_le_of_lt hij hj
  rcases eq_or_lt_of_le hij with heq | hlt
  · subst heq; exact le_refl _
  · have hi' : i < (idx.keyframeIndices.map idx.ptsOf).length := by
      rw [List.length_map]; exact hi
    have hj' : j < (idx.keyframeIndices.map idx.ptsOf).length := by
      rw [List.length_map]; exact hj
    have hp := List.pairwise_iff_getElem.mp hmono i j hi' hj' hlt
    rw [List.getElem_map, List.getElem_map] at hp
    rw [List.getD_eq_getElem?_getD, List.getElem?_eq_getElem hi,
      List.getD_eq_getElem?_getD, List.getElem?_eq_getElem hj]
    exact hp

/-- C6: for every target time t, over a keyframe index whose recorded
keyframe pts are ascending (the index invariant): findKeyframeBefore t
returns the not-found signal exactly when no keyframes are indexed;
otherwise it returns a keyframe entry (sampleIndex, pts) whose pts is the
recorded pts of that sampleIndex, which is the keyframe with the largest
pts at most t when one exists, and which is the first keyframe when t is
smaller than every keyframe's pts. -/
theorem C6_findKeyframeBefore_correct (idx : KeyframeIndex) (t : ℚ)
    (hmono : (idx.keyframeIndices.map idx.ptsOf).Sorted (· ≤ ·)) :
    (idx.findKeyframeBefore t = none ↔ idx.keyframeIndices = []) ∧
    (∀ r, idx.findKeyframeBefore t = some r →
      r.1 ∈ idx.keyframeIndices ∧ r.2 = idx.ptsOf r.1 ∧
      ((∃ i ∈ idx.keyframeIndices, idx.ptsOf i ≤ t) →
        r.2 ≤ t ∧
          ∀ i ∈ idx.keyframeIndices, idx.ptsOf i ≤ t → idx.ptsOf i ≤ r.2) ∧
      ((∀ i ∈ idx.keyframeIndices, t < idx.ptsOf i) →
        r.1 = idx.keyframeIndices.getD 0 0)) := by
  have hmono' := keyAt_mono idx hmono
  constructor
  · unfold KeyframeIndex.findKeyframeBefore
    by_cases hkf : idx.keyframeIndices.length = 0
    · rw [if_pos hkf]
      simp [List.length_eq_zero.mp hkf]
    · rw [if_neg hkf]
      constructor
      · intro h; exact absurd h (by simp)
      · intro h; rw [h] at hkf; simp at hkf
  · intro r hr
    by_cases hkf : idx.keyframeIndices.length = 0
    · unfold KeyframeIndex.findKeyframeBefore at hr
      rw [if_pos hkf] at hr
      exact absurd hr (by simp)
    · unfold KeyframeIndex.findKeyframeBefore at hr
      rw [if_neg hkf] at hr
      have hr2 := (Option.some.inj hr).symm
      have hspec := bsearchLE_spec
        (fun m => idx.ptsOf (idx.keyframeIndices.getD m 0))
        (fun m => idx.keyframeIndices.getD m 0) t
        idx.keyframeIndices.length hmono'
        (idx.keyframeIndices.getD 0 0)
        idx.keyframeIndices.length 0 idx.keyframeIndices.length
        (idx.keyframeIndices.getD 0 0)
        (by omega) (by omega) (le_refl _)
        (by intro i hi; omega)
        (by intro i hi hin; omega)
        (by simp)
      rw [hspec] at hr2
      set C := countLE (fun m => idx.ptsOf (idx.keyframeIndices.getD m 0)) t
        idx.keyframeIndices.length with hCdef
      have hCle : C ≤ idx.keyframeIndices.length := by
        rw [hCdef]
        unfold countLE
        exact le_trans (Finset.card_filter_le _ _)
          (le_of_eq (Finset.card_range _))
      have hmem_getD : ∀ m, m < idx.keyframeIndices.length →
          idx.keyframeIndices.getD m 0 ∈ idx.keyframeIndices := by
        intro m hm
        rw [List.getD_eq_getElem?_getD, List.getElem?_eq_getElem hm]
        exact List.getElem_mem hm
      have hr1_mem : r.1 ∈ idx.keyframeIndices := by
        rw [hr2]
        by_cases hC0 : C = 0
        · rw [if_pos hC0]
          exact hmem_getD 0 (by omega)
        · rw [if_neg hC0]
          exact hmem_getD (C - 1) (by omega)
      refine ⟨hr1_mem, by rw [hr2], ?_, ?_⟩
      · rintro ⟨i, hi_mem, hi_le⟩
        obtain ⟨m, hm, hmi⟩ := List.getElem_of_mem hi_mem
        have hkeym : idx.ptsOf (idx.keyframeIndices.getD m 0) ≤ t := by
          rw [List.getD_eq_getElem?_getD, List.getElem?_eq_getElem hm,
            Option.getD_some, hmi]
          exact hi_le
        have hm_filter : m ∈ (Finset.range idx.keyframeIndices.length).filter
            (fun i => idx.ptsOf (idx.keyframeIndices.getD i 0) ≤ t) := by
          rw [Finset.mem_filter, Finset.mem_range]
          exact ⟨hm, hkeym⟩
        have hC_pos : C ≠ 0 := by
          intro hc
          rw [hCdef] at hc
          unfold countLE at hc
          rw [Finset.card_eq_zero] at hc
          rw [hc] at hm_filter
          exact absurd hm_filter (Finset.not_mem_empty m)
        have hdc : ∀ i j, i ≤ j →
            j ∈ (Finset.range idx.keyframeIndices.length).filter
              (fun i => idx.ptsOf (idx.keyframeIndices.getD i 0) ≤ t) →
            i ∈ (Finset.range idx.keyframeIndices.length).filter
              (fun i => idx.ptsOf (idx.keyframeIndices.getD i 0) ≤ t) := by
          intro i j hij hjf
          rw [Finset.mem_filter, Finset.mem_range] at hjf
          rw [Finset.mem_filter, Finset.mem_range]
          exact ⟨by omega, le_trans (hmono' i j hij hjf.1) hjf.2⟩
        have hfilter_eq : (Finset.range idx.keyframeIndices.length).filter
            (fun i => idx.ptsOf (idx.keyframeIndices.getD i 0) ≤ t) =
            Finset.range C := downward_closed_eq_range hdc
        have hmemC : ∀ m', m' < C →
            m' < idx.keyframeIndices.length ∧
              idx.ptsOf (idx.keyframeIndices.getD m' 0) ≤ t := by
          intro m' hm'
          have : m' ∈ Finset.range C := Finset.mem_range.mpr hm'
          rw [← hfilter_eq, Finset.mem_filter, Finset.mem_range] at this
          exact this
        have hrval : r.1 = idx.keyframeIndices.getD (C - 1) 0 := by
          rw [hr2, if_neg hC_pos]
        have hr2val : r.2 = idx.ptsOf (idx.keyframeIndices.getD (C - 1) 0) := by
          rw [hr2, if_neg hC_pos]
        constructor
        · rw [hr2val]
          exact (hmemC (C - 1) (by omega)).2
        · intro i' hi'_mem hi'_le
          obtain ⟨m', hm', hmi'⟩ := List.getElem_of_mem hi'_mem
          have hkeym' : idx.ptsOf (idx.keyframeIndices.getD m' 0) ≤ t := by
            rw [List.getD_eq_getElem?_getD, List.getElem?_eq_getElem hm',
              Option.getD_some, hmi']
            exact hi'_le
          have hm'_lt : m' < C := by
            have hmr : m' ∈ Finset.range C := by
              rw [← hfilter_eq, Finset.mem_filter, Finset.mem_range]
              exact ⟨hm', hkeym'⟩
            exact Finset.mem_range.mp hmr
          have hle := hmono' m' (C - 1) (by omega) (by omega)
          rw [hr2val]
          refine le_trans ?_ hle
          rw [List.getD_eq_getElem?_getD, List.getElem?_eq_getElem hm',
            Option.getD_some, hmi']
      · intro hall
        have hC0 : C = 0 := by
          rw [hCdef]
          unfold countLE
          rw [Finset.card_eq_zero, Finset.filter_eq_empty_iff]
          intro m hm
          rw [Finset.mem_range] at hm
          rw [not_le]
          exact hall _ (hmem_getD m hm)
        rw [hr2, if_pos hC0]

/-- Witness for C6: a concrete index with keyframes at sample indices 0 and
2 (pts 10 and 30); its keyframe pts list is ascending and the search
conclusions hold at target time 20. -/
theorem C6_findKeyframeBefore_correct_witness :
    ((KeyframeIndex.mk [0, 2] [(0, 10), (1, 15), (2, 30)]
        []).keyframeIndices.map
      (KeyframeIndex.mk [0, 2] [(0, 10), (1, 15), (2, 30)]
        []).ptsOf).Sorted (· ≤ ·) ∧
    (((KeyframeIndex.mk [0, 2] [(0, 10), (1, 15), (2, 30)]
          []).findKeyframeBefore 20 = none ↔
        (KeyframeIndex.mk [0, 2] [(0, 10), (1, 15), (2, 30)]
          []).keyframeIndices = []) ∧
      (∀ r, (KeyframeIndex.mk [0, 2] [(0, 10), (1, 15), (2, 30)]
            []).findKeyframeBefore 20 = some r →
        r.1 ∈ (KeyframeIndex.mk [0, 2] [(0, 10), (1, 15), (2, 30)]
            []).keyframeIndices ∧
        r.2 = (KeyframeIndex.mk [0, 2] [(0, 10), (1, 15), (2, 30)]
            []).ptsOf r.1 ∧
        ((∃ i ∈ (KeyframeIndex.mk [0, 2] [(0, 10), (1, 15), (2, 30)]
              []).keyframeIndices,
            (KeyframeIndex.mk [0, 2] [(0, 10), (1, 15), (2, 30)]
              []).ptsOf i ≤ 20) →
          r.2 ≤ 20 ∧
            ∀ i ∈ (KeyframeIndex.mk [0, 2] [(0, 10), (1, 15), (2, 30)]
                []).keyframeIndices,
              (KeyframeIndex.mk [0, 2] [(0, 10), (1, 15), (2, 30)]
                  []).ptsOf i ≤ 20 →
                (KeyframeIndex.mk [0, 2] [(0, 10), (1, 15), (2, 30)]
                  []).ptsOf i ≤ r.2) ∧
        ((∀ i ∈ (KeyframeIndex.mk [0, 2] [(0, 10), (1, 15), (2, 30)]
              []).keyframeIndices,
            20 < (KeyframeIndex.mk [0, 2] [(0, 10), (1, 15), (2, 30)]
              []).ptsOf i) →
          r.1 = (KeyframeIndex.mk [0, 2] [(0, 10), (1, 15), (2, 30)]
            []).keyframeIndices.getD 0 0))) :=
  ⟨by decide, C6_findKeyframeBefore_correct _ 20 (by decide)⟩

/-- C2: the claim fails — buildFromSamples does NOT append across calls.
The method resets samples, keyframeIndices and samplePts before consuming
the batch, so a second call discards everything recorded from the first
batch, contradicting the call site's own comment that the index
"accumulates across batches" / "builds incrementally as samples arrive".
Concretely: after a first batch holding one sync sample (cts 0) and a
second batch holding one non-sync sample (cts 5), the index holds 1 sample
(not 2), 0 keyframes (the batch-1 keyframe is gone), findKeyframeBefore no
longer finds anything, and getSample 0 now returns the batch-2 sample
instead of the batch-1 sample. -/
theorem C2_buildFromSamples_resets :
    ((KeyframeIndex.init.buildFromSamples
        [⟨0, 0, 1, 1, true, 10⟩]).buildFromSamples
      [⟨5, 5, 1, 1, false, 20⟩]).sampleCount = 1 ∧
    ((KeyframeIndex.init.buildFromSamples
        [⟨0, 0, 1, 1, true, 10⟩]).buildFromSamples
      [⟨5, 5, 1, 1, false, 20⟩]).keyframeCount = 0 ∧
    ((KeyframeIndex.init.buildFromSamples
        [⟨0, 0, 1, 1, true, 10⟩]).buildFromSamples
      [⟨5, 5, 1, 1, false, 20⟩]).findKeyframeBefore 0 = none ∧
    ((KeyframeIndex.init.buildFromSamples
        [⟨0, 0, 1, 1, true, 10⟩]).getSample 0).map (fun m => m.size) =
      some 10 ∧
    (((KeyframeIndex.init.buildFromSamples
          [⟨0, 0, 1, 1, true, 10⟩]).buildFromSamples
        [⟨5, 5, 1, 1, false, 20⟩]).getSample 0).map (fun m => m.size) =
      some 20 := by
  decide

theorem lookup_updateSession :
    ∀ (sessions : List (String × DecodeSession)) (id : String)
      (s : DecodeSession),
      (sessions.lookup id).isSome = true →
      (updateSession sessions id s).lookup id = some s := by
  intro sessions
  induction sessions with
  | nil => intro id s h; simp [List.lookup] at h
  | cons e rest ih =>
    obtain ⟨k, v⟩ := e
    intro id s h
    unfold updateSession
    rw [List.map_cons]
    by_cases hk : k = id
    · subst hk
      rw [if_pos rfl]
      simp [List.lookup]
    · have hne : (id == k) = false := by
        rw [beq_eq_false_iff_ne]
        exact fun hc => hk hc.symm
      simp only [List.lookup, hne] at h
      rw [if_neg (by simpa using hk)]
      simp only [List.lookup, hne]
      exact ih id s h

theorem feedSamples_true_eq : ∀ samples : List MP4Sample,
    feedSamples true samples = (true, samples) := by
  intro samples
  induction samples with
  | nil => rfl
  | cons s rest ih =>
    unfold feedSamples
    simp [ih]

theorem feedSamples_false_eq : ∀ samples : List MP4Sample,
    (feedSamples false samples).2 =
      samples.dropWhile (fun s => !s.is_sync) := by
  intro samples
  induction samples with
  | nil => rfl
  | cons s rest ih =>
    unfold feedSamples
    by_cases hs : s.is_sync = true
    · simp [hs, List.dropWhile, feedSamples_true_eq]
    · have hs' : s.is_sync = false := by simpa using hs
      simp [hs', List.dropWhile, ih]

/-- C4 counterexample: a stop request for an unknown session id does NOT
post an error response: handleStop returns silently with no message, while
the claim (and the spec's error taxonomy) says seek AND stop on an unknown
id report an error to the caller. -/
theorem C4_stop_silent_counterexample :
    handleStop [] "missing" = ([], []) := by
  rfl

/-- C4 (amended): for every session id with no active Decode Session, a
seek request posts a "No active session" error response and leaves the
session registry unchanged, while a stop request is a silent no-op: it
posts no message at all (not an error) and likewise leaves the registry
unchanged; in particular neither request mutates any other session's
state. -/
theorem C4_no_session_handling (sessions : List (String × DecodeSession))
    (id : String) (time : ℚ) (h : sessions.lookup id = none) :
    handleSeek sessions id time =
      (sessions, [OutMsg.errorMsg id "No active session"]) ∧
    handleStop sessions id = (sessions, []) := by
  constructor
  · unfold handleSeek
    rw [h]
  · unfold handleStop
    rw [h]

/-- Witness for C4: with one active session "a", a seek and a stop for the
unknown id "b" behave as the amended claim states. -/
theorem C4_no_session_handling_witness :
    ([("a", sampleSession)].lookup "b" = none) ∧
    (handleSeek [("a", sampleSession)] "b" 2 =
        ([("a", sampleSession)], [OutMsg.errorMsg "b" "No active session"]) ∧
      handleStop [("a", sampleSession)] "b" = ([("a", sampleSession)], [])) :=
  ⟨by decide, C4_no_session_handling [("a", sampleSession)] "b" 2 (by decide)⟩

/-- C10: the keyframe gate of the sample-feeding loop.  Started with the
keyframeReceived flag false (the state at session start and after every
seek-induced decoder reset), the loop passes to the decoder exactly the
input batch with its longest all-delta (non-sync) head removed: every
sample is dropped until the first sync sample, and from that sync sample
onward every sample is decoded.  With the flag already true, every sample
is decoded.  And a seek on a session whose decoder is open resets the
session's keyframeReceived flag to false. -/
theorem C10_keyframe_gating :
    (∀ samples : List MP4Sample,
      (feedSamples false samples).2 =
        samples.dropWhile (fun s => !s.is_sync)) ∧
    (∀ samples : List MP4Sample, (feedSamples true samples).2 = samples) ∧
    (∀ (sessions : List (String × DecodeSession)) (id : String) (time : ℚ)
        (session : DecodeSession),
      sessions.lookup id = some session → session.decoderOpen = true →
      ((handleSeek sessions id time).1.lookup id).map
        (fun s => s.keyframeReceived) = some false) := by
  refine ⟨feedSamples_false_eq, fun samples => by rw [feedSamples_true_eq],
    ?_⟩
  intro sessions id time session hlook hopen
  unfold handleSeek
  rw [hlook]
  simp only []
  rw [lookup_updateSession sessions id _ (by rw [hlook]; rfl)]
  simp [hopen]

/-- Witness for C10: on a registry holding the session "a" with an open
decoder, a seek resets the keyframeReceived flag to false. -/
theorem C10_keyframe_gating_witness :
    ([("a", sampleSession)].lookup "a" = some sampleSession) ∧
    sampleSession.decoderOpen = true ∧
    ((handleSeek [("a", sampleSession)] "a" 2).1.lookup "a").map
      (fun s => s.keyframeReceived) = some false :=
  ⟨by decide, rfl,
    C10_keyframe_gating.2.2 [("a", sampleSession)] "a" 2 sampleSession
      (by decide) rfl⟩

theorem lookup_update {β : Type} :
    ∀ (l : List (String × β)) (id : String) (b : β),
      (l.lookup id).isSome = true →
      (l.map (fun e => if e.1 = id then (id, b) else e)).lookup id =
        some b := by
  intro l
  induction l with
  | nil => intro id b h; simp [List.lookup] at h
  | cons e rest ih =>
    obtain ⟨k, v⟩ := e
    intro id b h
    rw [List.map_cons]
    by_cases hk : k = id
    · subst hk
      rw [if_pos rfl]
      simp [List.lookup]
    · have hne : (id == k) = false := by
        rw [beq_eq_false_iff_ne]
        exact fun hc => hk hc.symm
      simp only [List.lookup, hne] at h
      rw [if_neg (by simpa using hk)]
      simp only [List.lookup, hne]
      exact ih id b h

theorem keys_update {β : Type} (l : List (String × β)) (id : String)
    (b : β) :
    (l.map (fun e => if e.1 = id then (id, b) else e)).map Prod.fst =
      l.map Prod.fst := by
  rw [List.map_map]
  apply List.map_congr_left
  intro e _
  by_cases h : e.1 = id
  · simp [h]
  · simp [h]

/-- C5 counterexample: after adding one frame for source "a" and then
calling clearSource "a", the manager still holds a map entry for "a" (the
retained-source count stays 1), while the claim says the entry is dropped
and no longer counts. -/
theorem C5_clearSource_counterexample :
    ((FrameCacheManager.init.addFrame "a" 1 7 0).clearSource "a").caches.map
        Prod.fst = ["a"] ∧
      ((FrameCacheManager.init.addFrame "a" 1 7 0).clearSource
        "a").caches.length = 1 := by decide

/-- C5 (amended): clearSource releases every frame resource held for the
source and empties its frames map and sorted-timestamp list, but it keeps
the source's now-empty map entry, which continues to count toward the
retained-source count (only eviction replaces it); clearAll releases every
frame and drops all map entries. -/
theorem C5_clearSource_clearAll (m : FrameCacheManager) (sourceId : String)
    (cache : SourceCache) (h : m.caches.lookup sourceId = some cache) :
    ((m.clearSource sourceId).caches.lookup sourceId =
        some ⟨[], [], cache.lastAccessTime⟩) ∧
    (m.clearSource sourceId).caches.map Prod.fst = m.caches.map Prod.fst ∧
    (m.clearSource sourceId).caches.length = m.caches.length ∧
    (m.clearAll).caches = [] := by
  unfold FrameCacheManager.clearSource
  rw [h]
  refine ⟨?_, ?_, ?_, rfl⟩
  · exact lookup_update m.caches sourceId _ (by rw [h]; rfl)
  · exact keys_update m.caches sourceId _
  · exact List.length_map _ _

/-- Witness for C5: source "a" holds one frame; clearSource empties its
entry but keeps it, and clearAll empties the manager. -/
theorem C5_clearSource_clearAll_witness :
    ((FrameCacheManager.init.addFrame "a" 1 7 0).caches.lookup "a" =
      some ⟨[(1, 7)], [1], 0⟩) ∧
    (((FrameCacheManager.init.addFrame "a" 1 7 0).clearSource
          "a").caches.lookup "a" = some ⟨[], [], 0⟩) ∧
      ((FrameCacheManager.init.addFrame "a" 1 7 0).clearSource
          "a").caches.map Prod.fst =
        (FrameCacheManager.init.addFrame "a" 1 7 0).caches.map Prod.fst ∧
      ((FrameCacheManager.init.addFrame "a" 1 7 0).clearSource
          "a").caches.length =
        (FrameCacheManager.init.addFrame "a" 1 7 0).caches.length ∧
      (FrameCacheManager.init.addFrame "a" 1 7 0).clearAll.caches = [] :=
  ⟨by decide,
    C5_clearSource_clearAll (FrameCacheManager.init.addFrame "a" 1 7 0) "a"
      ⟨[(1, 7)], [1], 0⟩ (by decide)⟩

theorem countLE_filter_eq {keyAt : ℕ → ℚ} {t : ℚ} {n : ℕ}
    (mono : ∀ i j, i ≤ j → j < n → keyAt i ≤ keyAt j) :
    (Finset.range n).filter (fun i => keyAt i ≤ t) =
      Finset.range (countLE keyAt t n) := by
  unfold countLE
  apply downward_closed_eq_range
  intro i j hij hj
  rw [Finset.mem_filter, Finset.mem_range] at hj
  rw [Finset.mem_filter, Finset.mem_range]
  exact ⟨by omega, le_trans (mono i j hij hj.1) hj.2⟩

theorem lt_countLE_iff {keyAt : ℕ → ℚ} {t : ℚ} {n : ℕ}
    (mono : ∀ i j, i ≤ j → j < n → keyAt i ≤ keyAt j) :
    ∀ m, m < countLE keyAt t n ↔ (m < n ∧ keyAt m ≤ t) := by
  intro m
  rw [← Finset.mem_range, ← countLE_filter_eq mono, Finset.mem_filter,
    Finset.mem_range]

theorem getD_mono_of_sorted {ts : List ℚ} (h : ts.Sorted (· ≤ ·)) :
    ∀ i j, i ≤ j → j < ts.length → ts.getD i 0 ≤ ts.getD j 0 := by
  intro i j hij hj
  rcases eq_or_lt_of_le hij with heq | hlt
  · subst heq; exact le_refl _
  · have hi : i < ts.length := by omega
    have hp := List.pairwise_iff_getElem.mp h i j hi hj hlt
    rw [List.getD_eq_getElem?_getD, List.getElem?_eq_getElem hi,
      List.getD_eq_getElem?_getD, List.getElem?_eq_getElem hj]
    exact hp

theorem getD_mem_rat {ts : List ℚ} : ∀ m, m < ts.length →
    ts.getD m 0 ∈ ts := by
  intro m hm
  rw [List.getD_eq_getElem?_getD, List.getElem?_eq_getElem hm]
  exact List.getElem_mem hm

/-- C8 counterexample: the source's binary search uses bestTs = -1 as its
not-found sentinel, so a cached timestamp of exactly -1 collides with it:
with cached timestamps -3, -1, 5 (frames 3, 1, 55), getFrame at time 0
finds -1 as the greatest timestamp at most 0, mistakes it for "none
found", and returns the earliest frame (frame 3 at -3) instead of frame 1
at -1 — falsifying the claim's "greatest timestamp <= time" clause. -/
theorem C8_getFrame_sentinel_counterexample :
    mgrNeg.caches.lookup "a" =
      some ⟨[(-3, 3), (-1, 1), (5, 55)], [-3, -1, 5], 0⟩ ∧
    ((-1 : ℚ)) ≤ 0 ∧
    (mgrNeg.getFrame "a" 0 0).1 = some 3 ∧
    (mgrNeg.getFrame "a" 0 0).1 ≠ some 1 := by
  decide

/-- C8 (amended): getFrame returns the not-found signal when the source
has no cache or no frames; otherwise (for a cache satisfying the
source-maintained invariants: sorted timestamps mirroring the frame keys)
PROVIDED no cached timestamp equals -1 — the search's internal not-found
sentinel, which a cached -1 collides with (see the counterexample) — it
returns the cached frame with the greatest timestamp at most the requested
time, or the earliest cached frame when no timestamp is at most the
requested time.  In particular, with cached timestamps 2, 5, 9 holding
frames 12, 15, 19: getFrame at time 7 returns frame 15 (timestamp 5), at
time 1 returns frame 12 (timestamp 2), and at time 9 returns frame 19
(timestamp 9). -/
theorem C8_getFrame_amended :
    (∀ (m : FrameCacheManager) (sourceId : String) (time now : ℚ),
      (m.caches.lookup sourceId = none →
        (m.getFrame sourceId time now).1 = none) ∧
      (∀ cache, m.caches.lookup sourceId = some cache →
        (cache.frames = [] → (m.getFrame sourceId time now).1 = none) ∧
        (cache.sortedTimestamps.Sorted (· ≤ ·) →
          cache.sortedTimestamps.length = cache.frames.length →
          (-1 : ℚ) ∉ cache.sortedTimestamps →
          (∀ p ∈ cache.sortedTimestamps,
            (cache.frames.lookup p).isSome = true) →
          cache.frames ≠ [] →
          ∃ b ∈ cache.sortedTimestamps,
            (m.getFrame sourceId time now).1 = cache.frames.lookup b ∧
            (cache.frames.lookup b).isSome = true ∧
            ((∃ p ∈ cache.sortedTimestamps, p ≤ time) →
              b ≤ time ∧
                ∀ p ∈ cache.sortedTimestamps, p ≤ time → p ≤ b) ∧
            ((∀ p ∈ cache.sortedTimestamps, time < p) →
              b = cache.sortedTimestamps.getD 0 0)))) ∧
    ((mgrEx.getFrame "a" 7 0).1 = some 15 ∧
      (mgrEx.getFrame "a" 1 0).1 = some 12 ∧
      (mgrEx.getFrame "a" 9 0).1 = some 19) := by
  constructor
  · intro m sourceId time now
    constructor
    · intro h
      unfold FrameCacheManager.getFrame
      rw [h]
    · intro cache hlook
      constructor
      · intro hfr
        unfold FrameCacheManager.getFrame
        split
        · rfl
        · rename_i c heq
          have hc : c = cache := by
            rw [hlook] at heq
            exact (Option.some.inj heq).symm
          subst hc
          rw [if_pos (by rw [hfr]; rfl)]
      · intro hsorted hlen hneg1 hkeys hne
        have hlen0 : ¬(cache.frames.length = 0) := by
          simpa [List.length_eq_zero] using hne
        have htlen0 : cache.sortedTimestamps.length ≠ 0 := by omega
        have hmono := getD_mono_of_sorted hsorted
        have hgf : (m.getFrame sourceId time now).1 =
            (if bsearchLE (fun mid => cache.sortedTimestamps.getD mid 0)
                (fun mid => cache.sortedTimestamps.getD mid 0) time
                cache.sortedTimestamps.length 0
                cache.sortedTimestamps.length (-1) = -1 then
              cache.frames.lookup (cache.sortedTimestamps.getD 0 0)
            else
              cache.frames.lookup
                (bsearchLE (fun mid => cache.sortedTimestamps.getD mid 0)
                  (fun mid => cache.sortedTimestamps.getD mid 0) time
                  cache.sortedTimestamps.length 0
                  cache.sortedTimestamps.length (-1))) := by
          unfold FrameCacheManager.getFrame
          split
          · rename_i heq
            rw [hlook] at heq
            exact absurd heq (by simp)
          · rename_i c heq
            have hc : c = cache := by
              rw [hlook] at heq
              exact (Option.some.inj heq).symm
            subst hc
            rw [if_neg hlen0]
            simp only []
            rw [apply_ite Prod.fst]
        have hspec := bsearchLE_spec
          (fun mid => cache.sortedTimestamps.getD mid 0)
          (fun mid => cache.sortedTimestamps.getD mid 0) time
          cache.sortedTimestamps.length hmono (-1)
          cache.sortedTimestamps.length 0 cache.sortedTimestamps.length
          (-1) (by omega) (by omega) (le_refl _)
          (by intro i hi; omega) (by intro i hi hin; omega) (by simp)
        rw [hspec] at hgf
        set C := countLE (fun mid => cache.sortedTimestamps.getD mid 0)
          time cache.sortedTimestamps.length with hCdef
        have hCle : C ≤ cache.sortedTimestamps.length := by
          rw [hCdef]
          unfold countLE
          exact le_trans (Finset.card_filter_le _ _)
            (le_of_eq (Finset.card_range _))
        have hCpos_or : C = 0 ∨ 0 < C := by omega
        by_cases hC : C = 0
        · rw [if_pos hC, if_pos rfl] at hgf
          refine ⟨cache.sortedTimestamps.getD 0 0,
            getD_mem_rat 0 (by omega), hgf,
            hkeys _ (getD_mem_rat 0 (by omega)), ?_, fun _ => rfl⟩
          rintro ⟨p, hp_mem, hp_le⟩
          obtain ⟨mp, hmp, hpe⟩ := List.getElem_of_mem hp_mem
          have hkeymp : cache.sortedTimestamps.getD mp 0 ≤ time := by
            rw [List.getD_eq_getElem?_getD, List.getElem?_eq_getElem hmp,
              Option.getD_some, hpe]
            exact hp_le
          have : mp < C := (lt_countLE_iff hmono mp).mpr ⟨hmp, hkeymp⟩
          omega
        · have hCpos : 0 < C := by omega
          have hC1lt : C - 1 < cache.sortedTimestamps.length := by omega
          have hbne : ¬(cache.sortedTimestamps.getD (C - 1) 0 = (-1 : ℚ)) := by
            intro hc
            exact hneg1 (hc ▸ getD_mem_rat (C - 1) hC1lt)
          rw [if_neg hC, if_neg hbne] at hgf
          have hCm1 := (@lt_countLE_iff _ time _ hmono (C - 1)).mp (by omega)
          refine ⟨cache.sortedTimestamps.getD (C - 1) 0,
            getD_mem_rat (C - 1) hC1lt, hgf,
            hkeys _ (getD_mem_rat (C - 1) hC1lt), ?_, ?_⟩
          · intro _
            refine ⟨hCm1.2, ?_⟩
            intro p hp_mem hp_le
            obtain ⟨mp, hmp, hpe⟩ := List.getElem_of_mem hp_mem
            have hkeymp : cache.sortedTimestamps.getD mp 0 ≤ time := by
              rw [List.getD_eq_getElem?_getD, List.getElem?_eq_getElem hmp,
                Option.getD_some, hpe]
              exact hp_le
            have hmpC : mp < C := (lt_countLE_iff hmono mp).mpr ⟨hmp, hkeymp⟩
            have := hmono mp (C - 1) (by omega) (by omega)
            refine le_trans ?_ this
            rw [List.getD_eq_getElem?_getD, List.getElem?_eq_getElem hmp,
              Option.getD_some, hpe]
          · intro hall
            exact absurd hCm1.2
              (not_le.mpr (hall _ (getD_mem_rat (C - 1) hC1lt)))
  · exact ⟨by decide, by decide, by decide⟩

/-- Witness for C8: the general statement applied to the worked example's
cache of source "a" (timestamps 2, 5, 9, none equal to the -1 sentinel)
at time 7; all invariants are discharged by computation. -/
theorem C8_getFrame_amended_witness :
    (mgrEx.caches.lookup "a" =
      some ⟨[(2, 12), (5, 15), (9, 19)], [2, 5, 9], 0⟩) ∧
    (∃ b ∈ (SourceCache.mk [(2, 12), (5, 15), (9, 19)] [2, 5, 9]
        0).sortedTimestamps,
      (mgrEx.getFrame "a" 7 0).1 =
        (SourceCache.mk [(2, 12), (5, 15), (9, 19)] [2, 5, 9]
          0).frames.lookup b ∧
      ((SourceCache.mk [(2, 12), (5, 15), (9, 19)] [2, 5, 9]
          0).frames.lookup b).isSome = true ∧
      ((∃ p ∈ (SourceCache.mk [(2, 12), (5, 15), (9, 19)] [2, 5, 9]
          0).sortedTimestamps, p ≤ 7) →
        b ≤ 7 ∧
          ∀ p ∈ (SourceCache.mk [(2, 12), (5, 15), (9, 19)] [2, 5, 9]
            0).sortedTimestamps, p ≤ 7 → p ≤ b) ∧
      ((∀ p ∈ (SourceCache.mk [(2, 12), (5, 15), (9, 19)] [2, 5, 9]
          0).sortedTimestamps, 7 < p) →
        b = (SourceCache.mk [(2, 12), (5, 15), (9, 19)] [2, 5, 9]
          0).sortedTimestamps.getD 0 0)) :=
  ⟨by decide,
    ((C8_getFrame_amended.1 mgrEx "a" 7 0).2
      ⟨[(2, 12), (5, 15), (9, 19)], [2, 5, 9], 0⟩ (by decide)).2
      (by decide) (by decide) (by decide) (by decide) (by decide)⟩

theorem lookup_append_single {β : Type} :
    ∀ (l : List (String × β)) (id : String) (b : β),
      l.lookup id = none → (l ++ [(id, b)]).lookup id = some b := by
  intro l
  induction l with
  | nil =>
    intro id b _
    simp [List.lookup]
  | cons e rest ih =>
    obtain ⟨k, v⟩ := e
    intro id b h
    rw [List.cons_append]
    cases hbk : (id == k) with
    | false =>
      simp only [List.lookup, hbk] at h ⊢
      exact ih id b h
    | true =>
      simp only [List.lookup, hbk] at h
      cases h

theorem lookup_setLastTime (pc : PlaybackController) (sourceId : String)
    (t : ℚ) :
    (pc.setLastTime sourceId t).lastRequestedTime.lookup sourceId =
      some t := by
  unfold PlaybackController.setLastTime
  cases hlk : pc.lastRequestedTime.lookup sourceId with
  | none => exact lookup_append_single _ _ _ hlk
  | some lt => exact lookup_update _ _ _ (by rw [hlk]; rfl)

/-- C9: detectTimeChange classifies the first request for a source as
continuous and records the time; on every later call it classifies seek
exactly when the absolute delta from the recorded time strictly exceeds the
0.1-second jump threshold, classifies continuous otherwise, and in every
case records the new time as the source's last requested time.  The spec's
examples hold: with last time 2, a request at 2.05 is continuous and a
request at 2.5 is a seek; a first request is continuous. -/
theorem C9_detectTimeChange_correct :
    (∀ (pc : PlaybackController) (sourceId : String) (newTime : ℚ),
      (pc.lastRequestedTime.lookup sourceId = none →
        (pc.detectTimeChange sourceId newTime).1 = TimeChange.continuous) ∧
      (∀ lastTime, pc.lastRequestedTime.lookup sourceId = some lastTime →
        ((pc.detectTimeChange sourceId newTime).1 = TimeChange.seek ↔
          JUMP_THRESHOLD_SECONDS < |newTime - lastTime|)) ∧
      ((pc.detectTimeChange sourceId
          newTime).2.lastRequestedTime.lookup sourceId = some newTime)) ∧
    (((PlaybackController.mk [("a", 2)]).detectTimeChange "a"
        (2 + 5 / 100)).1 = TimeChange.continuous ∧
      ((PlaybackController.mk [("a", 2)]).detectTimeChange "a"
        (2 + 5 / 10)).1 = TimeChange.seek ∧
      (PlaybackController.init.detectTimeChange "a" 3).1 =
        TimeChange.continuous) := by
  have hgen : ∀ (pc : PlaybackController) (sourceId : String) (newTime : ℚ),
      (pc.lastRequestedTime.lookup sourceId = none →
        (pc.detectTimeChange sourceId newTime).1 = TimeChange.continuous) ∧
      (∀ lastTime, pc.lastRequestedTime.lookup sourceId = some lastTime →
        ((pc.detectTimeChange sourceId newTime).1 = TimeChange.seek ↔
          JUMP_THRESHOLD_SECONDS < |newTime - lastTime|)) ∧
      ((pc.detectTimeChange sourceId
          newTime).2.lastRequestedTime.lookup sourceId = some newTime) := by
    intro pc sourceId newTime
    refine ⟨?_, ?_, ?_⟩
    · intro h
      unfold PlaybackController.detectTimeChange
      rw [h]
    · intro lastTime h
      unfold PlaybackController.detectTimeChange
      rw [h]
      simp only []
      by_cases hd : JUMP_THRESHOLD_SECONDS < |newTime - lastTime|
      · rw [if_pos hd]
        simp [hd]
      · rw [if_neg hd]
        simp [hd]
    · unfold PlaybackController.detectTimeChange
      cases hlk : pc.lastRequestedTime.lookup sourceId with
      | none => exact lookup_setLastTime pc sourceId newTime
      | some lastTime =>
        simp only []
        split
        · exact lookup_setLastTime pc sourceId newTime
        · exact lookup_setLastTime pc sourceId newTime
  refine ⟨hgen, ?_, ?_, ?_⟩
  · have hle : ¬(JUMP_THRESHOLD_SECONDS < |(2 + 5 / 100 : ℚ) - 2|) := by
      unfold JUMP_THRESHOLD_SECONDS
      rw [show (2 + 5 / 100 : ℚ) - 2 = 5 / 100 by ring,
        abs_of_nonneg (by norm_num)]
      norm_num
    have h2 := (hgen (PlaybackController.mk [("a", 2)]) "a"
      (2 + 5 / 100)).2.1 2 (by decide)
    rcases hc : ((PlaybackController.mk [("a", 2)]).detectTimeChange "a"
      (2 + 5 / 100)).1 with _ | _
    · rw [hc] at h2
      exact absurd (h2.mp rfl) hle
    · rfl
  · have hgt : JUMP_THRESHOLD_SECONDS < |(2 + 5 / 10 : ℚ) - 2| := by
      unfold JUMP_THRESHOLD_SECONDS
      rw [show (2 + 5 / 10 : ℚ) - 2 = 5 / 10 by ring,
        abs_of_nonneg (by norm_num)]
      norm_num
    exact ((hgen (PlaybackController.mk [("a", 2)]) "a"
      (2 + 5 / 10)).2.1 2 (by decide)).mpr hgt
  · exact (hgen PlaybackController.init "a" 3).1 rfl

/-- Witness for C9: on a controller whose last time for source "a" is 2, a
request at time 3 satisfies the seek-iff-threshold characterization and
records time 3. -/
theorem C9_detectTimeChange_correct_witness :
    ((PlaybackController.mk [("a", 2)]).lastRequestedTime.lookup "a" =
      some 2) ∧
    ((((PlaybackController.mk [("a", 2)]).detectTimeChange "a" 3).1 =
        TimeChange.seek ↔
      JUMP_THRESHOLD_SECONDS < |(3 : ℚ) - 2|) ∧
      (((PlaybackController.mk [("a", 2)]).detectTimeChange "a"
        3).2.lastRequestedTime.lookup "a" = some 3)) :=
  ⟨by decide,
    (C9_detectTimeChange_correct.1 (PlaybackController.mk [("a", 2)]) "a"
      3).2.1 2 (by decide),
    (C9_detectTimeChange_correct.1 (PlaybackController.mk [("a", 2)]) "a"
      3).2.2⟩

theorem lookup_none_not_mem_keys {β : Type} :
    ∀ (l : List (String × β)) (id : String), l.lookup id = none →
      id ∉ l.map Prod.fst := by
  intro l
  induction l with
  | nil => intro id _ hmem; simp at hmem
  | cons e rest ih =>
    obtain ⟨k, v⟩ := e
    intro id hlk hmem
    rw [List.map_cons] at hmem
    rcases List.mem_cons.mp hmem with h1 | h1
    · have hbk : (id == k) = true := beq_iff_eq.mpr h1
      simp only [List.lookup, hbk] at hlk
      cases hlk
    · cases hbk : (id == k) with
      | true => simp only [List.lookup, hbk] at hlk; cases hlk
      | false =>
        simp only [List.lookup, hbk] at hlk
        exact ih id hlk h1

theorem lookup_some_mem {β : Type} :
    ∀ (l : List (String × β)) (id : String) (b : β),
      l.lookup id = some b → (id, b) ∈ l := by
  intro l
  induction l with
  | nil => intro id b h; simp [List.lookup] at h
  | cons e rest ih =>
    obtain ⟨k, v⟩ := e
    intro id b h
    cases hbk : (id == k) with
    | true =>
      simp only [List.lookup, hbk] at h
      have hik : id = k := beq_iff_eq.mp hbk
      have hvb : v = b := Option.some.inj h
      subst hik
      subst hvb
      exact List.mem_cons_self _ _
    | false =>
      simp only [List.lookup, hbk] at h
      exact List.mem_cons_of_mem _ (ih id b h)

theorem mem_eraseP_of_key_ne {α β : Type} [DecidableEq α] {e : α × β}
    {t : α} (hne : e.1 ≠ t) :
    ∀ l : List (α × β), e ∈ l → e ∈ l.eraseP (fun p => decide (p.1 = t)) := by
  intro l
  induction l with
  | nil => intro h; cases h
  | cons x xs ih =>
    intro h
    by_cases hx : x.1 = t
    · have hpx : decide (x.1 = t) = true := by simp [hx]
      rw [List.eraseP_cons, hpx, cond_true]
      rcases List.mem_cons.mp h with h1 | h1
      · subst h1; exact absurd hx hne
      · exact h1
    · have hpx : decide (x.1 = t) = false := by simp [hx]
      rw [List.eraseP_cons, hpx, cond_false]
      rcases List.mem_cons.mp h with h1 | h1
      · subst h1; exact List.mem_cons_self _ _
      · exact List.mem_cons_of_mem _ (ih h1)

theorem evictFramesLoop_spec :
    ∀ (ts : List ℚ) (frames : List (ℚ × ℕ)),
      WFpair frames ts →
      WFpair (evictFramesLoop frames ts).1 (evictFramesLoop frames ts).2 ∧
      (evictFramesLoop frames ts).1.length < MAX_FRAMES_PER_SOURCE ∧
      (evictFramesLoop frames ts).1.Sublist frames := by
  intro ts
  induction ts with
  | nil =>
    intro frames hwf
    have hlen : frames.length = 0 := by
      have h := hwf.2.2.2
      simpa using h
    refine ⟨hwf, ?_, List.Sublist.refl _⟩
    show frames.length < MAX_FRAMES_PER_SOURCE
    unfold MAX_FRAMES_PER_SOURCE
    omega
  | cons t rest ih =>
    intro frames hwf
    obtain ⟨hkeys, hnodt, hsub, hlen⟩ := hwf
    have heq : evictFramesLoop frames (t :: rest) =
        if MAX_FRAMES_PER_SOURCE ≤ frames.length then
          evictFramesLoop (frames.eraseP (fun p => decide (p.1 = t))) rest
        else (frames, t :: rest) := rfl
    by_cases hfull : MAX_FRAMES_PER_SOURCE ≤ frames.length
    · rw [heq, if_pos hfull]
      obtain ⟨e, he, hef⟩ := List.mem_map.mp (hsub t (List.mem_cons_self _ _))
      have ht_notin : t ∉ rest := (List.nodup_cons.mp hnodt).1
      have herase_len :
          (frames.eraseP (fun p => decide (p.1 = t))).length =
            frames.length - 1 :=
        List.length_eraseP_of_mem he (by simp [hef])
      have herase_sub :
          (frames.eraseP (fun p => decide (p.1 = t))).Sublist frames :=
        List.eraseP_sublist frames
      have hpre : WFpair (frames.eraseP (fun p => decide (p.1 = t))) rest := by
        refine ⟨(herase_sub.map Prod.fst).nodup hkeys,
          (List.nodup_cons.mp hnodt).2, ?_, ?_⟩
        · intro t' ht'
          obtain ⟨e', he', hef'⟩ :=
            List.mem_map.mp (hsub t' (List.mem_cons_of_mem _ ht'))
          have hne : e'.1 ≠ t := by
            rw [hef']
            intro hc
            exact ht_notin (hc ▸ ht')
          exact List.mem_map.mpr
            ⟨e', mem_eraseP_of_key_ne hne frames he', hef'⟩
        · rw [herase_len]
          rw [List.length_cons] at hlen
          omega
      have hres := ih (frames.eraseP (fun p => decide (p.1 = t))) hpre
      exact ⟨hres.1, hres.2.1, hres.2.2.trans herase_sub⟩
    · rw [heq, if_neg hfull]
      refine ⟨⟨hkeys, hnodt, hsub, hlen⟩, ?_, List.Sublist.refl _⟩
      show frames.length < MAX_FRAMES_PER_SOURCE
      omega

theorem foldl_eraseP_spec {β : Type} :
    ∀ (vs cs : List (String × β)),
      (cs.map Prod.fst).Nodup →
      (vs.map Prod.fst).Nodup →
      (∀ v ∈ vs, v.1 ∈ cs.map Prod.fst) →
      (vs.foldl (fun acc v => acc.eraseP (fun e => decide (e.1 = v.1)))
          cs).length = cs.length - vs.length ∧
      (vs.foldl (fun acc v => acc.eraseP (fun e => decide (e.1 = v.1)))
          cs).Sublist cs := by
  intro vs
  induction vs with
  | nil => intro cs _ _ _; exact ⟨by simp, List.Sublist.refl _⟩
  | cons v vs ih =>
    intro cs hcs hvs hmem
    rw [List.foldl_cons]
    obtain ⟨e, he, hef⟩ := List.mem_map.mp (hmem v (List.mem_cons_self _ _))
    have hlen1 : (cs.eraseP (fun e => decide (e.1 = v.1))).length =
        cs.length - 1 :=
      List.length_eraseP_of_mem he (by simp [hef])
    have hsub1 : (cs.eraseP (fun e => decide (e.1 = v.1))).Sublist cs :=
      List.eraseP_sublist cs
    have hcs1n : ((cs.eraseP (fun e => decide (e.1 = v.1))).map
        Prod.fst).Nodup := (hsub1.map Prod.fst).nodup hcs
    have hvsn : (vs.map Prod.fst).Nodup := by
      rw [List.map_cons] at hvs
      exact (List.nodup_cons.mp hvs).2
    have hv_notin : v.1 ∉ vs.map Prod.fst := by
      rw [List.map_cons] at hvs
      exact (List.nodup_cons.mp hvs).1
    have hmem1 : ∀ v' ∈ vs,
        v'.1 ∈ (cs.eraseP (fun e => decide (e.1 = v.1))).map Prod.fst := by
      intro v' hv'
      obtain ⟨e', he', hef'⟩ :=
        List.mem_map.mp (hmem v' (List.mem_cons_of_mem _ hv'))
      have hne : e'.1 ≠ v.1 := by
        rw [hef']
        intro hc
        exact hv_notin (hc ▸ List.mem_map_of_mem Prod.fst hv')
      exact List.mem_map.mpr ⟨e', mem_eraseP_of_key_ne hne cs he', hef'⟩
    have hres := ih (cs.eraseP (fun e => decide (e.1 = v.1))) hcs1n hvsn hmem1
    have hpos : 1 ≤ cs.length := by
      have hne := List.ne_nil_of_mem he
      have := List.length_pos.mpr hne
      omega
    constructor
    · rw [hres.1, hlen1, List.length_cons]
      omega
    · exact hres.2.trans hsub1

theorem evictOldSources_spec (m : FrameCacheManager)
    (hkeys : (m.caches.map Prod.fst).Nodup) :
    (m.evictOldSources.caches.length ≤ MAX_CACHED_SOURCES) ∧
    m.evictOldSources.caches.Sublist m.caches := by
  obtain ⟨cl⟩ := m
  unfold FrameCacheManager.evictOldSources
  by_cases hle : cl.length ≤ MAX_CACHED_SOURCES
  · rw [if_pos hle]
    exact ⟨hle, List.Sublist.refl _⟩
  · rw [if_neg hle]
    simp only []
    have hperm : (cl.mergeSort
        (fun a b => a.2.lastAccessTime ≤ b.2.lastAccessTime)).Perm cl :=
      List.mergeSort_perm _ _
    have hsortkeys : ((cl.mergeSort
        (fun a b => a.2.lastAccessTime ≤ b.2.lastAccessTime)).map
          Prod.fst).Nodup := ((hperm.map Prod.fst).nodup_iff).mpr hkeys
    have hvic_sub : ((cl.mergeSort
        (fun a b => a.2.lastAccessTime ≤ b.2.lastAccessTime)).take
          ((cl.mergeSort
            (fun a b => a.2.lastAccessTime ≤ b.2.lastAccessTime)).length -
            MAX_CACHED_SOURCES)).Sublist
        (cl.mergeSort (fun a b => a.2.lastAccessTime ≤ b.2.lastAccessTime)) :=
      List.take_sublist _ _
    have hvkeys := (hvic_sub.map Prod.fst).nodup hsortkeys
    have hvmem : ∀ v ∈ (cl.mergeSort
        (fun a b => a.2.lastAccessTime ≤ b.2.lastAccessTime)).take
          ((cl.mergeSort
            (fun a b => a.2.lastAccessTime ≤ b.2.lastAccessTime)).length -
            MAX_CACHED_SOURCES), v.1 ∈ cl.map Prod.fst := by
      intro v hv
      exact List.mem_map_of_mem Prod.fst (hperm.subset (hvic_sub.subset hv))
    have hres := foldl_eraseP_spec _ cl hkeys hvkeys hvmem
    have hvlen : ((cl.mergeSort
        (fun a b => a.2.lastAccessTime ≤ b.2.lastAccessTime)).take
          ((cl.mergeSort
            (fun a b => a.2.lastAccessTime ≤ b.2.lastAccessTime)).length -
            MAX_CACHED_SOURCES)).length =
        cl.length - MAX_CACHED_SOURCES := by
      rw [List.length_take, List.length_mergeSort]
      omega
    constructor
    · rw [hres.1, hvlen]
      omega
    · exact hres.2

theorem mem_keys_lookup_isSome {β : Type} :
    ∀ (l : List (ℚ × β)) (t : ℚ), t ∈ l.map Prod.fst →
      (l.lookup t).isSome = true := by
  intro l
  induction l with
  | nil => intro t h; simp at h
  | cons e rest ih =>
    obtain ⟨k, v⟩ := e
    intro t h
    rw [List.map_cons] at h
    by_cases hk : t = k
    · have hbk : (t == k) = true := by simp [hk]
      simp [List.lookup, hbk]
    · have hbk : (t == k) = false := by simp [hk]
      simp only [List.lookup, hbk]
      rcases List.mem_cons.mp h with h1 | h1
      · exact absurd h1 hk
      · exact ih t h1

theorem evict_preserve (u : List (String × SourceCache))
    (hkeys : (u.map Prod.fst).Nodup)
    (hent : ∀ e ∈ u, WFCache e.2 ∧
      e.2.frames.length ≤ MAX_FRAMES_PER_SOURCE) :
    CacheInv (FrameCacheManager.evictOldSources ⟨u⟩) := by
  have hspec := evictOldSources_spec ⟨u⟩ hkeys
  exact ⟨(hspec.2.map Prod.fst).nodup hkeys,
    fun e he => hent e (hspec.2.subset he), hspec.1⟩

theorem addFrameToCache_inv (caches : List (String × SourceCache))
    (sourceId : String) (cache : SourceCache) (timestamp : ℚ) (frame : ℕ)
    (now : ℚ)
    (hkeys : (caches.map Prod.fst).Nodup)
    (hent : ∀ e ∈ caches, WFCache e.2 ∧
      e.2.frames.length ≤ MAX_FRAMES_PER_SOURCE)
    (hlen : caches.length ≤ MAX_CACHED_SOURCES + 1)
    (hdup : (cache.frames.lookup timestamp).isSome = true →
      caches.length ≤ MAX_CACHED_SOURCES)
    (hcache : WFCache cache) :
    CacheInv (FrameCacheManager.addFrameToCache caches sourceId cache
      timestamp frame now) := by
  unfold FrameCacheManager.addFrameToCache
  by_cases hd : (cache.frames.lookup timestamp).isSome = true
  · rw [if_pos hd]
    exact ⟨hkeys, hent, hdup hd⟩
  · rw [if_neg hd]
    simp only []
    obtain ⟨⟨hek, hets, hesub, helen⟩, hevlen, hevsub⟩ :=
      evictFramesLoop_spec cache.sortedTimestamps cache.frames hcache
    have hts_not : timestamp ∉ cache.frames.map Prod.fst := by
      intro hc
      exact hd (mem_keys_lookup_isSome _ _ hc)
    have hts_notev : timestamp ∉
        (evictFramesLoop cache.frames cache.sortedTimestamps).1.map
          Prod.fst :=
      fun hc => hts_not ((hevsub.map Prod.fst).subset hc)
    have hts_notts : timestamp ∉
        (evictFramesLoop cache.frames cache.sortedTimestamps).2 :=
      fun hc => hts_notev (hesub _ hc)
    have hsperm : ((evictFramesLoop cache.frames
          cache.sortedTimestamps).2.take
            (binarySearchInsertIdx
              (evictFramesLoop cache.frames cache.sortedTimestamps).2
              timestamp) ++ [timestamp] ++
          (evictFramesLoop cache.frames cache.sortedTimestamps).2.drop
            (binarySearchInsertIdx
              (evictFramesLoop cache.frames cache.sortedTimestamps).2
              timestamp)).Perm
        (timestamp ::
          (evictFramesLoop cache.frames cache.sortedTimestamps).2) := by
      rw [List.append_assoc, List.singleton_append]
      have h1 : (timestamp ::
          ((evictFramesLoop cache.frames cache.sortedTimestamps).2.take
              (binarySearchInsertIdx
                (evictFramesLoop cache.frames cache.sortedTimestamps).2
                timestamp) ++
            (evictFramesLoop cache.frames cache.sortedTimestamps).2.drop
              (binarySearchInsertIdx
                (evictFramesLoop cache.frames cache.sortedTimestamps).2
                timestamp))).Perm
          (timestamp ::
            (evictFramesLoop cache.frames cache.sortedTimestamps).2) := by
        rw [List.take_append_drop]
      exact List.perm_middle.trans h1
    apply evict_preserve
    · unfold updateCache
      rw [keys_update]
      exact hkeys
    · intro e he
      unfold updateCache at he
      obtain ⟨e0, he0, heq⟩ := List.mem_map.mp he
      by_cases h0 : e0.1 = sourceId
      · rw [if_pos h0] at heq
        rw [← heq]
        constructor
        · refine ⟨?_, ?_, ?_, ?_⟩
          · rw [List.map_append]
            rw [List.nodup_append]
            refine ⟨hek, by simp, ?_⟩
            intro a ha hb
            have hab : a = timestamp := by simpa using hb
            exact hts_notev (hab ▸ ha)
          · exact hsperm.nodup_iff.mpr (List.nodup_cons.mpr ⟨hts_notts, hets⟩)
          · intro t ht
            have ht2 := hsperm.subset ht
            rw [List.map_append]
            rcases List.mem_cons.mp ht2 with h1 | h1
            · apply List.mem_append_right
              simp [h1]
            · exact List.mem_append_left _ (hesub _ h1)
          · rw [List.length_append, hsperm.length_eq, List.length_cons]
            simp [helen]
        · show ((evictFramesLoop cache.frames
              cache.sortedTimestamps).1 ++ [(timestamp, frame)]).length ≤
            MAX_FRAMES_PER_SOURCE
          rw [List.length_append]
          simp only [List.length_cons, List.length_nil]
          omega
      · rw [if_neg h0] at heq
        rw [← heq]
        exact hent e0 he0

theorem addFrame_inv (m : FrameCacheManager) (sourceId : String)
    (timestamp : ℚ) (frame : ℕ) (now : ℚ) (h : CacheInv m) :
    CacheInv (m.addFrame sourceId timestamp frame now) := by
  obtain ⟨hkeys, hent, hlen⟩ := h
  unfold FrameCacheManager.addFrame
  cases hlk : m.caches.lookup sourceId with
  | none =>
    apply addFrameToCache_inv
    · rw [List.map_append, List.nodup_append]
      refine ⟨hkeys, by simp, ?_⟩
      intro a ha hb
      have hab : a = sourceId := by simpa using hb
      exact lookup_none_not_mem_keys _ _ hlk (hab ▸ ha)
    · intro e he
      rcases List.mem_append.mp he with h1 | h1
      · exact hent e h1
      · have he2 : e = (sourceId, ⟨[], [], now⟩) := by simpa using h1
        rw [he2]
        exact ⟨⟨List.nodup_nil, List.nodup_nil, by simp, rfl⟩,
          by simp [MAX_FRAMES_PER_SOURCE]⟩
    · rw [List.length_append]
      simp only [List.length_cons, List.length_nil]
      omega
    · intro hd
      simp [List.lookup] at hd
    · exact ⟨List.nodup_nil, List.nodup_nil, by simp, rfl⟩
  | some cache =>
    have hmem := lookup_some_mem _ _ _ hlk
    exact addFrameToCache_inv m.caches sourceId cache timestamp frame now
      hkeys hent (by omega) (fun _ => hlen) (hent _ hmem).1

/-- C7: after any finite sequence of addFrame calls starting from the empty
frame cache manager, the manager retains at most MAX_CACHED_SOURCES (10)
sources, and every retained source's cache holds at most
MAX_FRAMES_PER_SOURCE (300) frames.  (Each op supplies source id,
timestamp, frame handle and the observed clock.) -/
theorem C7_cache_bounds (ops : List (String × ℚ × ℕ × ℚ)) :
    ((ops.foldl
        (fun m o => m.addFrame o.1 o.2.1 o.2.2.1 o.2.2.2)
        FrameCacheManager.init).caches.length ≤ MAX_CACHED_SOURCES) ∧
    (∀ e ∈ (ops.foldl
        (fun m o => m.addFrame o.1 o.2.1 o.2.2.1 o.2.2.2)
        FrameCacheManager.init).caches,
      e.2.frames.length ≤ MAX_FRAMES_PER_SOURCE) := by
  have hgen : ∀ (l : List (String × ℚ × ℕ × ℚ)) (m : FrameCacheManager),
      CacheInv m →
      CacheInv (l.foldl
        (fun m o => m.addFrame o.1 o.2.1 o.2.2.1 o.2.2.2) m) := by
    intro l
    induction l with
    | nil => intro m hm; exact hm
    | cons o l ih =>
      intro m hm
      rw [List.foldl_cons]
      exact ih _ (addFrame_inv m o.1 o.2.1 o.2.2.1 o.2.2.2 hm)
  have hfin := hgen ops FrameCacheManager.init
    ⟨List.nodup_nil, ⟨(by intro e he; cases he), Nat.zero_le _⟩⟩
  exact ⟨hfin.2.2, fun e he => (hfin.2.1 e he).2⟩

/-- Witness for C7: a single addFrame for source "a" stays within both
bounds, and the resulting entry for "a" holds one frame. -/
theorem C7_cache_bounds_witness :
    (([("a", (1 : ℚ), 7, (0 : ℚ))].foldl
        (fun m o => m.addFrame o.1 o.2.1 o.2.2.1 o.2.2.2)
        FrameCacheManager.init).caches.length ≤ MAX_CACHED_SOURCES) ∧
    (("a", (⟨[(1, 7)], [1], 0⟩ : SourceCache)) ∈
        ([("a", (1 : ℚ), 7, (0 : ℚ))].foldl
          (fun m o => m.addFrame o.1 o.2.1 o.2.2.1 o.2.2.2)
          FrameCacheManager.init).caches ∧
      (⟨[(1, 7)], [1], 0⟩ : SourceCache).frames.length ≤
        MAX_FRAMES_PER_SOURCE) :=
  ⟨(C7_cache_bounds [("a", (1 : ℚ), 7, (0 : ℚ))]).1,
    by decide,
    (C7_cache_bounds [("a", (1 : ℚ), 7, (0 : ℚ))]).2
      ("a", (⟨[(1, 7)], [1], 0⟩ : SourceCache)) (by decide)⟩
